import Mathlib

/-!
Verification of the liveref checkpoint-trace recorder and replay engine.

This file shallowly embeds the core of the repository:

* `src/trace/types.ts` — the trace data model (`ValueRef`, `HeapObject`,
  `HeapState`, `DeltaEvent`, `StepMeta`, `Snapshot`, `TraceLog`);
* `src/runner/checkpointRecorder.ts` — the stateful `CheckpointRecorder`
  (constructor, `ensureObjId`, `alloc`, `write`, `del`, `rootSet`,
  `rootDel`, `checkpointStep`, `callEnter`, `callExit`);
* `src/trace/replay.ts` — the pure replay engine (`applyEvent`,
  `findSnapshot`, `getStateAt`);
* `src/runner/instrument.ts` — the checkpoint-id derivation
  (`checkpointStartIdOf`, `checkpointAfterIdOf`).

Modelling conventions:

* JavaScript records (`Record<string, T>`) are insertion-ordered
  association lists; `recGet`, `recSet`, `recDel` mirror property read,
  write (in-place update of an existing key, append for a fresh key) and
  `delete`.  JS deep equality of records ignores insertion order, so
  "structurally equal" heap states are compared by the lookup-extensional
  relation `HeapState.Equiv` below.
* `deepClone` / `cloneState` (`JSON.parse(JSON.stringify(x))`) are deep
  copies; in a value semantics a deep copy of an immutable value is the
  value itself.  TS optional fields (`className?`, `checkpointId?`) are
  `Option`s.
* JS object *identities* handed to `ensureObjId` through the `WeakMap`
  are modelled as opaque tokens (`Nat`).
* A run of the recorder is a fold of recorder method calls (`RecOp`)
  over the freshly constructed recorder, exactly as the runtime hooks in
  `src/runner/runner.worker.ts` drive one recorder instance per run.
-/

/-- JS primitive values storable in a `ValueRef` (`Primitive` in
`src/trace/types.ts`): `null | undefined | boolean | number | string |
bigint`.  Finite numbers and bigints are carried opaquely; the recorder
never computes with them.  The non-finite numbers `NaN`, `Infinity` and
`-Infinity` get constructors of their own (`typeof` reports them as
`"number"`, so `toValueRef` records them as primitives), because
`JSON.stringify` does not round-trip them — see `clonePrim`. -/
inductive Prim where
  | null : Prim
  | undef : Prim
  | bool : Bool → Prim
  | num : Int → Prim
  | nan : Prim
  | inf : Prim
  | ninf : Prim
  | str : String → Prim
  | bigint : Int → Prim
deriving DecidableEq, Repr

/-- `ValueRef` from `src/trace/types.ts`: tagged union of a primitive and
an object reference. -/
inductive ValueRef where
  | prim : Prim → ValueRef
  | obj : String → ValueRef
deriving DecidableEq, Repr

/-- The `objKind` field: `"object" | "array" | "function" | "class"`. -/
inductive ObjKind where
  | object : ObjKind
  | array : ObjKind
  | function : ObjKind
  | cls : ObjKind
deriving DecidableEq, Repr

/-- Property read `m[k]` on a JS record (first matching key). -/
def recGet {α : Type} (m : List (String × α)) (k : String) : Option α :=
  match m with
  | [] => none
  | (k', v) :: rest => if k' = k then some v else recGet rest k

/-- Property write `m[k] = v` on a JS record: updates the existing key in
place (preserving its position) or appends a fresh key at the end. -/
def recSet {α : Type} (m : List (String × α)) (k : String) (v : α) : List (String × α) :=
  match m with
  | [] => [(k, v)]
  | (k', w) :: rest => if k' = k then (k, v) :: rest else (k', w) :: recSet rest k v

/-- Property removal `delete m[k]` on a JS record.  (JS records never
hold a key twice, so removing every occurrence coincides with removing
the one stored entry.) -/
def recDel {α : Type} (m : List (String × α)) (k : String) : List (String × α) :=
  match m with
  | [] => []
  | (k', w) :: rest => if k' = k then recDel rest k else (k', w) :: recDel rest k

/-- `HeapObject` from `src/trace/types.ts`. -/
structure HeapObject where
  id : String
  objKind : ObjKind
  className : Option String
  props : List (String × ValueRef)
deriving DecidableEq, Repr

/-- A `lastWrite` entry `{ stepId, checkpointId }`. -/
structure LastWrite where
  stepId : Nat
  checkpointId : Option String
deriving DecidableEq, Repr

/-- `HeapState` from `src/trace/types.ts`. -/
structure HeapState where
  objects : List (String × HeapObject)
  roots : List (String × ValueRef)
  lastWrite : List (String × LastWrite)
deriving DecidableEq, Repr

/-- The empty heap `{ objects: {}, roots: {}, lastWrite: {} }`. -/
def emptyHeap : HeapState := ⟨[], [], []⟩

/-- One primitive through `JSON.parse(JSON.stringify(_))` (the
`deepClone` helper of `src/runner/checkpointRecorder.ts`): `NaN`,
`Infinity` and `-Infinity` serialize as `null`; a `bigint` makes
`JSON.stringify` throw a `TypeError` (`none`); every other primitive
round-trips to itself.  (A property holding `undefined` is dropped by
`JSON.stringify` and reads back as `undefined`, so observably it also
round-trips.) -/
def clonePrim : Prim → Option Prim
  | .nan => some .null
  | .inf => some .null
  | .ninf => some .null
  | .bigint _ => none
  | p => some p

/-- A `ValueRef` through the JSON round-trip: object references are
plain strings and survive; primitives go through `clonePrim`. -/
def cloneVal : ValueRef → Option ValueRef
  | .prim p => (clonePrim p).map ValueRef.prim
  | .obj id => some (.obj id)

/-- A JS record of `ValueRef`s through the JSON round-trip: every stored
value is cloned; one failing value fails the whole stringify. -/
def cloneVals : List (String × ValueRef) → Option (List (String × ValueRef))
  | [] => some []
  | (k, v) :: rest =>
    match cloneVal v, cloneVals rest with
    | some w, some ws => some ((k, w) :: ws)
    | _, _ => none

/-- A `HeapObject` through the JSON round-trip: `id`, `objKind` and
`className` are strings and survive; the props record is cloned. -/
def cloneObj (o : HeapObject) : Option HeapObject :=
  (cloneVals o.props).map fun ps => { o with props := ps }

/-- The `objects` record through the JSON round-trip. -/
def cloneObjs : List (String × HeapObject) → Option (List (String × HeapObject))
  | [] => some []
  | (k, o) :: rest =>
    match cloneObj o, cloneObjs rest with
    | some w, some ws => some ((k, w) :: ws)
    | _, _ => none

/-- `deepClone` (`JSON.parse(JSON.stringify(x))`) on a whole
`HeapState`.  `none` models the `TypeError` thrown when a bigint sits
anywhere in the state.  `lastWrite` entries hold only a number and an
optional string, which round-trip unchanged. -/
def deepCloneState (S : HeapState) : Option HeapState :=
  match cloneObjs S.objects, cloneVals S.roots with
  | some os, some rs => some ⟨os, rs, S.lastWrite⟩
  | _, _ => none

/-- `DeltaEvent` from `src/trace/types.ts`. -/
inductive DeltaEvent where
  | alloc : String → ObjKind → Option String → DeltaEvent
  | write : String → String → ValueRef → Option String → DeltaEvent
  | del : String → String → Option String → DeltaEvent
  | rootSet : String → ValueRef → Option String → DeltaEvent
  | rootDel : String → Option String → DeltaEvent
deriving DecidableEq, Repr

/-- `StepMeta` from `src/trace/types.ts`; `[deltaFrom, deltaTo)` is a
half-open range of event indices. -/
structure StepMeta where
  stepId : Nat
  checkpointId : Option String
  varNames : List String
  deltaFrom : Nat
  deltaTo : Nat
deriving DecidableEq, Repr

/-- `Snapshot` from `src/trace/types.ts` (`at` is a Lean keyword, hence
`at_`). -/
structure Snapshot where
  at_ : Nat
  state : HeapState
deriving DecidableEq, Repr

/-- The kind tag of a `CallEvent`. -/
inductive CallKind where
  | enter : CallKind
  | exit : CallKind
deriving DecidableEq, Repr

/-- `CallEvent` from `src/trace/types.ts`. -/
structure CallEvent where
  callId : Nat
  kind : CallKind
  fnName : String
  stepId : Nat
  checkpointId : Option String
deriving DecidableEq, Repr

/-- `TraceLog` from `src/trace/types.ts`. -/
structure TraceLog where
  steps : List StepMeta
  events : List DeltaEvent
  snapshots : List Snapshot
  callEvents : List CallEvent
deriving DecidableEq, Repr

/-- `lwKey` / `lastWriteKey`: the shared `"<objId>:<key>"` scheme. -/
def lwKey (obj key : String) : String := obj ++ ":" ++ key

/-- `rootWriteKey`: the `"root:<name>"` scheme. -/
def rootWriteKey (name : String) : String := "root:" ++ name

/-- `applyEvent` from `src/trace/replay.ts`: applies one delta event to a
heap state, stamping `lastWrite` with the replaying step id.  `write` and
`delete` are silently skipped when the target object is unknown; `alloc`
is skipped when the object already exists. -/
def applyEvent (state : HeapState) (e : DeltaEvent) (stepId : Nat) : HeapState :=
  match e with
  | .alloc obj objKind className =>
    match recGet state.objects obj with
    | some _ => state
    | none =>
      { state with objects := recSet state.objects obj ⟨obj, objKind, className, []⟩ }
  | .write obj key val cp =>
    match recGet state.objects obj with
    | none => state
    | some o =>
      { state with
        objects := recSet state.objects obj { o with props := recSet o.props key val }
        lastWrite := recSet state.lastWrite (lwKey obj key) ⟨stepId, cp⟩ }
  | .del obj key cp =>
    match recGet state.objects obj with
    | none => state
    | some o =>
      { state with
        objects := recSet state.objects obj { o with props := recDel o.props key }
        lastWrite := recSet state.lastWrite (lwKey obj key) ⟨stepId, cp⟩ }
  | .rootSet name val cp =>
    { state with
      roots := recSet state.roots name val
      lastWrite := recSet state.lastWrite (rootWriteKey name) ⟨stepId, cp⟩ }
  | .rootDel name cp =>
    { state with
      roots := recDel state.roots name
      lastWrite := recSet state.lastWrite (rootWriteKey name) ⟨stepId, cp⟩ }

/-- Applies a list of delta events in order with one fixed replaying step
id (the inner loop of `getStateAt`). -/
def applyEvents (state : HeapState) (es : List DeltaEvent) (stepId : Nat) : HeapState :=
  es.foldl (fun s e => applyEvent s e stepId) state

/-- The event slice `events[f..t)` read by the inner replay loop.  (In
the source the loop indexes `trace.events[i]` directly; all recorder
traces keep `f ≤ t ≤ events.length`, where the two forms agree.) -/
def evSlice (events : List DeltaEvent) (f t : Nat) : List DeltaEvent :=
  (events.drop f).take (t - f)

/-- One iteration of the outer replay loop of `getStateAt`: look up
`trace.steps[s]`, skip if missing (`if (!meta) continue`), else apply its
event slice with replaying step id `s`. -/
def applyStepIdx (trace : TraceLog) (state : HeapState) (s : Nat) : HeapState :=
  match trace.steps.get? s with
  | none => state
  | some meta => applyEvents state (evSlice trace.events meta.deltaFrom meta.deltaTo) s

/-- `findSnapshot` from `src/trace/replay.ts`: starts from
`snapshots[0]` and scans the whole list, replacing the candidate whenever
`s.at <= stepId && s.at >= best.at` (so among maximal eligible `at`s the
last one wins).  `none` models the crash on an empty snapshot list. -/
def findSnapshot (trace : TraceLog) (stepId : Nat) : Option Snapshot :=
  match trace.snapshots with
  | [] => none
  | s0 :: rest =>
    some ((s0 :: rest).foldl
      (fun best s => if s.at_ ≤ stepId ∧ best.at_ ≤ s.at_ then s else best) s0)

/-- `cloneState` from `src/trace/replay.ts` (`JSON.parse(JSON.stringify)`),
as `getStateAt` applies it to a *stored snapshot state*.  Every snapshot
state the pipeline stores is itself a JSON round-trip image
(`run_snapshot_clone_fixed` below), and the round-trip is the identity
on its own images (`deepCloneState_idem`), so at this call site the
clone is exactly the identity; the general, lossy round-trip is
`deepCloneState`. -/
def cloneState (s : HeapState) : HeapState := s

/-- `getStateAt` with the trace threaded through explicitly, mirroring
that every mutation of the working copy happens on the clone and never
writes back into the trace: the returned trace is the input trace. -/
def getStateAtM (trace : TraceLog) (stepId : Nat) : Option HeapState × TraceLog :=
  match findSnapshot trace stepId with
  | none => (none, trace)
  | some snap =>
    let state := cloneState snap.state
    (some ((List.range' snap.at_ (stepId + 1 - snap.at_)).foldl
      (fun st s => applyStepIdx trace st s) state), trace)

/-- `getStateAt` from `src/trace/replay.ts`: pick the snapshot, clone its
state, replay every step from `snap.at` through `stepId` inclusive. -/
def getStateAt (trace : TraceLog) (stepId : Nat) : Option HeapState :=
  (getStateAtM trace stepId).1

/-- Replay of the first `n` steps (array indices `0..n-1`) from the empty
heap — the canonical "replay everything forward" reading of a trace. -/
def replayUpTo (trace : TraceLog) (n : Nat) : HeapState :=
  (List.range n).foldl (fun st s => applyStepIdx trace st s) emptyHeap

/-- Replay from the step-0 snapshot (the first snapshot in the log, taken
at construction): clone `snapshots[0].state` and apply every step from 0
through `stepId` inclusive. -/
def replayFromStep0 (trace : TraceLog) (stepId : Nat) : Option HeapState :=
  trace.snapshots.head?.map fun snap0 =>
    (List.range' 0 (stepId + 1)).foldl (fun st s => applyStepIdx trace st s) (cloneState snap0.state)

/-- The decimal numeral of a `Nat`, digit characters `'0'..'9'`, as JS
string interpolation prints a natural number. -/
def decDigit (d : Nat) : Char := Char.ofNat (48 + d)

/-- Big-endian decimal digit list, with structural fuel (any fuel above
the argument gives the same digits). -/
def decDigitsAux : Nat → Nat → List Char
  | 0, _ => []
  | fuel + 1, n =>
    if n < 10 then [decDigit n]
    else decDigitsAux fuel (n / 10) ++ [decDigit (n % 10)]

/-- Big-endian decimal digit list of `n`. -/
def decDigits (n : Nat) : List Char := decDigitsAux (n + 1) n

/-- Decimal numeral string of `n` (the model of JS `` `${n}` `` for a
natural counter). -/
def decRepr (n : Nat) : String := ⟨decDigits n⟩

/-- The synthetic ObjId `"o<n>"` minted from the recorder's counter. -/
def mkObjId (n : Nat) : String := "o" ++ decRepr n

theorem decRepr_zero : decRepr 0 = "0" := rfl
theorem decRepr_seven : decRepr 7 = "7" := rfl
theorem decRepr_ten : decRepr 10 = "10" := rfl
theorem decRepr_osf : decRepr 123 = "123" := rfl
theorem mkObjId_twelve : mkObjId 12 = "o12" := rfl

/-- Insert into a lexicographically sorted list (helper for the JS
`Array.prototype.sort()` call on root names in `checkpointStep`). -/
def sortedInsert (s : String) : List String → List String
  | [] => [s]
  | t :: rest => if s ≤ t then s :: t :: rest else t :: sortedInsert s rest

/-- `Object.keys(roots).sort()`: the root names in ascending
lexicographic order. -/
def sortStrings (l : List String) : List String :=
  l.foldr sortedInsert []

/-- The placeholder `StepMeta` pushed by the `CheckpointRecorder`
constructor: `{ stepId: 0, checkpointId: "__init__", varNames: [],
deltaFrom: 0, deltaTo: 0 }`. -/
def initStepMeta : StepMeta := ⟨0, some "__init__", [], 0, 0⟩

/-- The state of one `CheckpointRecorder` instance
(`src/runner/checkpointRecorder.ts`): the private counters, the live
`HeapState`, the accumulating `TraceLog`, and the identity `WeakMap`
(`objIdMap`, keyed by opaque object-identity tokens). -/
structure CheckpointRecorder where
  stepId : Nat
  stepStartEventIndex : Nat
  snapshotEvery : Nat
  state : HeapState
  trace : TraceLog
  objIdMap : List (Nat × String)
  objIdSeq : Nat
  callIdSeq : Nat
deriving DecidableEq, Repr

namespace CheckpointRecorder

/-- Lookup in the identity `WeakMap` (token-keyed). -/
def idGet (m : List (Nat × String)) (k : Nat) : Option String :=
  match m with
  | [] => none
  | (k', v) :: rest => if k' = k then some v else idGet rest k

/-- Insertion into the identity `WeakMap`. -/
def idSet (m : List (Nat × String)) (k : Nat) (v : String) : List (Nat × String) :=
  match m with
  | [] => [(k, v)]
  | (k', w) :: rest => if k' = k then (k, v) :: rest else (k', w) :: idSet rest k v

/-- The constructor `new CheckpointRecorder(snapshotEveryNSteps)`:
clamps the interval with `Math.max(1, _)`, pushes the initial snapshot
`{ at: 0, state: deepClone(this.state) }` and the placeholder step-0
`StepMeta`. -/
def init (snapshotEveryNSteps : Nat) : CheckpointRecorder :=
  { stepId := 0
    stepStartEventIndex := 0
    snapshotEvery := max 1 snapshotEveryNSteps
    state := emptyHeap
    trace :=
      { steps := [initStepMeta]
        events := []
        snapshots := [⟨0, emptyHeap⟩]
        callEvents := [] }
    objIdMap := []
    objIdSeq := 1
    callIdSeq := 1 }

/-- `pushEvent`: append a `DeltaEvent` to the trace. -/
def pushEvent (r : CheckpointRecorder) (e : DeltaEvent) : CheckpointRecorder :=
  { r with trace := { r.trace with events := r.trace.events ++ [e] } }

/-- `alloc(obj, objKind, className?)`: registers the object in the live
heap if unknown, and always appends an `alloc` event. -/
def alloc (r : CheckpointRecorder) (obj : String) (objKind : ObjKind)
    (className : Option String) : CheckpointRecorder :=
  let r' :=
    match recGet r.state.objects obj with
    | some _ => r
    | none =>
      { r with state :=
          { r.state with objects := recSet r.state.objects obj ⟨obj, objKind, className, []⟩ } }
  pushEvent r' (.alloc obj objKind className)

/-- `ensureObjId(o, kind, className?)`: returns the id already mapped to
this object identity, or mints `"o<objIdSeq>"`, records it in the
`WeakMap`, bumps the counter and calls `alloc`. -/
def ensureObjId (r : CheckpointRecorder) (o : Nat) (kind : ObjKind)
    (className : Option String) : CheckpointRecorder × String :=
  match idGet r.objIdMap o with
  | some id => (r, id)
  | none =>
    let id := mkObjId r.objIdSeq
    let r' := { r with objIdMap := idSet r.objIdMap o id, objIdSeq := r.objIdSeq + 1 }
    (alloc r' id kind className, id)

/-- `write(obj, key, val, checkpointId?)`: silently returns if the target
ObjId is unknown; otherwise updates the object's props and `lastWrite`
and appends a `write` event. -/
def write (r : CheckpointRecorder) (obj key : String) (val : ValueRef)
    (cp : Option String) : CheckpointRecorder :=
  match recGet r.state.objects obj with
  | none => r
  | some o =>
    let r' :=
      { r with state :=
          { r.state with
            objects := recSet r.state.objects obj { o with props := recSet o.props key val }
            lastWrite := recSet r.state.lastWrite (lwKey obj key) ⟨r.stepId, cp⟩ } }
    pushEvent r' (.write obj key val cp)

/-- `del(obj, key, checkpointId?)`: silently returns if the target ObjId
is unknown; otherwise deletes the prop, updates `lastWrite` and appends a
`delete` event. -/
def del (r : CheckpointRecorder) (obj key : String) (cp : Option String) : CheckpointRecorder :=
  match recGet r.state.objects obj with
  | none => r
  | some o =>
    let r' :=
      { r with state :=
          { r.state with
            objects := recSet r.state.objects obj { o with props := recDel o.props key }
            lastWrite := recSet r.state.lastWrite (lwKey obj key) ⟨r.stepId, cp⟩ } }
    pushEvent r' (.del obj key cp)

/-- `rootSet(name, val, checkpointId?)`: unconditionally sets the root,
updates `lastWrite["root:<name>"]` and appends a `rootSet` event. -/
def rootSet (r : CheckpointRecorder) (name : String) (val : ValueRef)
    (cp : Option String) : CheckpointRecorder :=
  let r' :=
    { r with state :=
        { r.state with
          roots := recSet r.state.roots name val
          lastWrite := recSet r.state.lastWrite (rootWriteKey name) ⟨r.stepId, cp⟩ } }
  pushEvent r' (.rootSet name val cp)

/-- `rootDel(name, checkpointId?)`: unconditionally deletes the root,
updates `lastWrite["root:<name>"]` and appends a `rootDel` event. -/
def rootDel (r : CheckpointRecorder) (name : String) (cp : Option String) : CheckpointRecorder :=
  let r' :=
    { r with state :=
        { r.state with
          roots := recDel r.state.roots name
          lastWrite := recSet r.state.lastWrite (rootWriteKey name) ⟨r.stepId, cp⟩ } }
  pushEvent r' (.rootDel name cp)

/-- The `StepMeta` built by `checkpointStep`: the sorted live root names
and the half-open event range `[stepStartEventIndex, events.length)`. -/
def stepMetaOf (r : CheckpointRecorder) (cp : Option String) : StepMeta :=
  ⟨r.stepId, cp, sortStrings (r.state.roots.map Prod.fst),
    r.stepStartEventIndex, r.trace.events.length⟩

/-- `checkpointStep(checkpointId?)`: closes the current step — builds the
`StepMeta` for `[stepStartEventIndex, events.length)`, overwrites the
step-0 placeholder in place on the first call (guarded by
`stepId === 0 && steps.length === 1 && steps[0].checkpointId === "__init__"`)
or appends otherwise, pushes the `deepClone` of the live state as a full
snapshot when `(stepId + 1) % snapshotEvery === 0`, then advances the
counters.  When `deepCloneState` fails (a bigint in the state) the
source's `deepClone` throws a `TypeError`, aborting the run right here —
no later hook call ever executes; the model instead skips the snapshot
and continues, so the modelled runs are a superset of the real ones and
every theorem quantifying over all op sequences covers every real run. -/
def checkpointStep (r : CheckpointRecorder) (cp : Option String) : CheckpointRecorder :=
  let meta : StepMeta := stepMetaOf r cp
  let steps' :=
    match r.trace.steps with
    | [m] => if r.stepId = 0 ∧ m.checkpointId = some "__init__" then [meta]
             else r.trace.steps ++ [meta]
    | _ => r.trace.steps ++ [meta]
  let snapshots' :=
    if (r.stepId + 1) % r.snapshotEvery = 0 then
      match deepCloneState r.state with
      | some c => r.trace.snapshots ++ [⟨r.stepId, c⟩]
      | none => r.trace.snapshots
    else r.trace.snapshots
  { r with
    trace := { r.trace with steps := steps', snapshots := snapshots' }
    stepId := r.stepId + 1
    stepStartEventIndex := r.trace.events.length }

/-- `callEnter(fnName, checkpointId?)`: appends a `CallEvent` tagged with
the current step id; does not touch `HeapState`. -/
def callEnter (r : CheckpointRecorder) (fnName : String) (cp : Option String) :
    CheckpointRecorder :=
  { r with
    trace := { r.trace with
      callEvents := r.trace.callEvents ++ [⟨r.callIdSeq, .enter, fnName, r.stepId, cp⟩] }
    callIdSeq := r.callIdSeq + 1 }

/-- `callExit(fnName, checkpointId?)`: appends a `CallEvent` tagged with
the current step id; does not touch `HeapState`. -/
def callExit (r : CheckpointRecorder) (fnName : String) (cp : Option String) :
    CheckpointRecorder :=
  { r with
    trace := { r.trace with
      callEvents := r.trace.callEvents ++ [⟨r.callIdSeq, .exit, fnName, r.stepId, cp⟩] }
    callIdSeq := r.callIdSeq + 1 }

end CheckpointRecorder

/-- One recorder method call, as issued by the runtime tracing hooks of
`src/runner/runner.worker.ts` during a run. -/
inductive RecOp where
  | ensureObjId : Nat → ObjKind → Option String → RecOp
  | alloc : String → ObjKind → Option String → RecOp
  | write : String → String → ValueRef → Option String → RecOp
  | del : String → String → Option String → RecOp
  | rootSet : String → ValueRef → Option String → RecOp
  | rootDel : String → Option String → RecOp
  | checkpointStep : Option String → RecOp
  | callEnter : String → Option String → RecOp
  | callExit : String → Option String → RecOp
deriving DecidableEq, Repr

/-- Dispatch one recorder method call. -/
def runOp (r : CheckpointRecorder) : RecOp → CheckpointRecorder
  | .ensureObjId o kind cn => (r.ensureObjId o kind cn).1
  | .alloc obj kind cn => r.alloc obj kind cn
  | .write obj key val cp => r.write obj key val cp
  | .del obj key cp => r.del obj key cp
  | .rootSet name val cp => r.rootSet name val cp
  | .rootDel name cp => r.rootDel name cp
  | .checkpointStep cp => r.checkpointStep cp
  | .callEnter fn cp => r.callEnter fn cp
  | .callExit fn cp => r.callExit fn cp

/-- Run a sequence of recorder method calls from a given recorder. -/
def runOps (r : CheckpointRecorder) (ops : List RecOp) : CheckpointRecorder :=
  ops.foldl runOp r

/-- One full run of the recorder pipeline: a fresh
`new CheckpointRecorder(n)` driven by an arbitrary sequence of hook
calls.  Its `trace` is the `TraceLog` handed off by the runner. -/
def runRecorder (n : Nat) (ops : List RecOp) : CheckpointRecorder :=
  runOps (CheckpointRecorder.init n) ops

/-- A Babel source position: 1-based `line`, 0-based `column`, each
possibly absent (the `loc?.start?.line ?? 1` optional chains). -/
structure SrcPos where
  line : Option Nat
  column : Option Nat
deriving DecidableEq, Repr

/-- A Babel `loc` record with `start` and `end` positions. -/
structure SrcSpan where
  start : Option SrcPos
  stop : Option SrcPos
deriving DecidableEq, Repr

/-- The slice of a Babel AST node that `checkpointStartIdOf` /
`checkpointAfterIdOf` read: only `node.loc`. -/
structure AstNode where
  loc : Option SrcSpan
deriving DecidableEq, Repr

/-- `checkpointStartIdOf(node)` from `src/runner/instrument.ts`:
`line = node.loc?.start?.line ?? 1` (Babel lines are 1-based),
`col0 = node.loc?.start?.column ?? 0` (Babel columns are 0-based),
result `` `L${line}:${col0 + 1}` `` (column shifted to 1-based). -/
def checkpointStartIdOf (node : AstNode) : String :=
  let line := ((node.loc.bind (·.start)).bind (·.line)).getD 1
  let col0 := ((node.loc.bind (·.start)).bind (·.column)).getD 0
  "L" ++ decRepr line ++ ":" ++ decRepr (col0 + 1)

/-- `checkpointAfterIdOf(node)` from `src/runner/instrument.ts`: as
`checkpointStartIdOf` but preferring the end position, falling back to
the start position, then to the defaults. -/
def checkpointAfterIdOf (node : AstNode) : String :=
  let line := (((node.loc.bind (·.stop)).bind (·.line)).orElse
    (fun _ => (node.loc.bind (·.start)).bind (·.line))).getD 1
  let col0 := (((node.loc.bind (·.stop)).bind (·.column)).orElse
    (fun _ => (node.loc.bind (·.start)).bind (·.column))).getD 0
  "L" ++ decRepr line ++ ":" ++ decRepr (col0 + 1)

theorem checkpointStartIdOf_sample : checkpointStartIdOf ⟨some ⟨some ⟨some 3, some 4⟩, none⟩⟩ = "L3:5" := rfl
theorem checkpointStartIdOf_defaults : checkpointStartIdOf ⟨none⟩ = "L1:1" := rfl

/-! Record lookup lemmas. -/

theorem recGet_recSet {α : Type} (m : List (String × α)) (k k' : String) (v : α) :
    recGet (recSet m k v) k' = if k = k' then some v else recGet m k' := by
  induction m with
  | nil =>
    by_cases h : k = k' <;> simp [recSet, recGet, h]
  | cons hd tl ih =>
    obtain ⟨k₀, w⟩ := hd
    by_cases h0 : k₀ = k
    · subst h0
      by_cases h : k₀ = k' <;> simp [recSet, recGet, h]
    · by_cases h : k = k'
      · subst h
        simp [recSet, recGet, h0, ih]
      · simp only [recSet, if_neg h0, recGet]
        by_cases h1 : k₀ = k' <;> simp [h1, ih, h]

theorem recGet_recDel {α : Type} (m : List (String × α)) (k k' : String) :
    recGet (recDel m k) k' = if k = k' then none else recGet m k' := by
  induction m with
  | nil =>
    by_cases h : k = k' <;> simp [recDel, recGet, h]
  | cons hd tl ih =>
    obtain ⟨k₀, w⟩ := hd
    by_cases h0 : k₀ = k
    · subst h0
      rw [show recDel ((k₀, w) :: tl) k₀ = recDel tl k₀ by simp [recDel], ih]
      by_cases h : k₀ = k' <;> simp [recGet, h]
    · rw [show recDel ((k₀, w) :: tl) k = (k₀, w) :: recDel tl k by simp [recDel, h0]]
      by_cases h1 : k₀ = k'
      · subst h1
        have hk : k ≠ k₀ := fun hh => h0 hh.symm
        simp [recGet, hk]
      · simp only [recGet, if_neg h1, ih]

theorem recGet_mem {α : Type} {m : List (String × α)} {k : String} {v : α}
    (h : recGet m k = some v) : (k, v) ∈ m := by
  induction m with
  | nil => simp [recGet] at h
  | cons hd tl ih =>
    obtain ⟨k₀, w⟩ := hd
    by_cases h0 : k₀ = k
    · subst h0
      rw [show recGet ((k₀, w) :: tl) k₀ = some w by simp [recGet]] at h
      cases h
      exact List.mem_cons_self _ _
    · rw [show recGet ((k₀, w) :: tl) k = recGet tl k by simp [recGet, h0]] at h
      exact List.mem_cons_of_mem _ (ih h)

/-! Decimal numeral facts: `mkObjId` is injective, so distinct counter
values mint distinct ObjIds. -/

theorem decDigit_toNat : ∀ d, d < 10 → (decDigit d).toNat = 48 + d := by decide

/-- Value of a big-endian decimal digit string. -/
def ofDecVal (l : List Char) : Nat :=
  l.foldl (fun a c => a * 10 + (c.toNat - 48)) 0

theorem decDigitsAux_foldl : ∀ fuel n acc, n < fuel →
    (decDigitsAux fuel n).foldl (fun a c => a * 10 + (c.toNat - 48)) acc =
      acc * 10 ^ (decDigitsAux fuel n).length + n := by
  intro fuel
  induction fuel with
  | zero => intro n acc h; omega
  | succ fuel ih =>
    intro n acc h
    by_cases h10 : n < 10
    · simp [decDigitsAux, h10, List.foldl, decDigit_toNat n h10]
    · have hins : decDigitsAux (fuel + 1) n =
          decDigitsAux fuel (n / 10) ++ [decDigit (n % 10)] := by
        simp [decDigitsAux, h10]
      have hdivlt : n / 10 < fuel := by
        have h1 : n / 10 < n := Nat.div_lt_self (by omega) (by omega)
        omega
      have hmod : (decDigit (n % 10)).toNat = 48 + n % 10 :=
        decDigit_toNat _ (Nat.mod_lt _ (by omega))
      rw [hins, List.foldl_append, ih (n / 10) acc hdivlt]
      simp only [List.foldl, List.length_append, List.length_cons, List.length_nil, hmod]
      have : (acc * 10 ^ (decDigitsAux fuel (n / 10)).length + n / 10) * 10 + (48 + n % 10 - 48) =
          acc * (10 ^ (decDigitsAux fuel (n / 10)).length * 10) + (n / 10 * 10 + n % 10) := by
        ring_nf
        omega
      rw [this, Nat.pow_succ]
      have : n / 10 * 10 + n % 10 = n := by
        have := Nat.div_add_mod n 10
        omega
      rw [this]

theorem ofDecVal_decDigits (n : Nat) : ofDecVal (decDigits n) = n := by
  have := decDigitsAux_foldl (n + 1) n 0 (Nat.lt_succ_self n)
  simpa [ofDecVal, decDigits] using this

theorem decDigits_inj {n m : Nat} (h : decDigits n = decDigits m) : n = m := by
  have hn := ofDecVal_decDigits n
  have hm := ofDecVal_decDigits m
  rw [h] at hn
  omega

theorem mkObjId_inj {n m : Nat} (h : mkObjId n = mkObjId m) : n = m := by
  have hdata : ('o' :: decDigits n) = ('o' :: decDigits m) := by
    have := congrArg String.data h
    simpa [mkObjId, decRepr, String.append] using this
  exact decDigits_inj (List.cons_injective hdata)

/-! Per-location views of event application.  Each component of the heap
state (object header, single prop, single root, single lastWrite entry)
evolves under `applyEvent` as a small automaton on its own value; these
characterisations drive both the recorder/replay correspondence and the
snapshot-transparency proof. -/

/-- The object targeted by a guarded mutation event (`write`/`delete`). -/
def evTargetW : DeltaEvent → Option String
  | .write obj _ _ _ => some obj
  | .del obj _ _ => some obj
  | _ => none

/-- Whether an event allocates the given object. -/
def isAllocOf (obj : String) : DeltaEvent → Bool
  | .alloc o _ _ => o = obj
  | _ => false

/-- `orElse` on options, spelled out. -/
def orElseO {α : Type} (x y : Option α) : Option α :=
  match x with
  | some a => some a
  | none => y

theorem present_applyEvent (S : HeapState) (e : DeltaEvent) (sid : Nat) (o : String) :
    (recGet (applyEvent S e sid).objects o).isSome =
      ((recGet S.objects o).isSome || isAllocOf o e) := by
  cases e with
  | alloc obj k cn =>
    rcases hg : recGet S.objects obj with _ | ob
    · simp only [applyEvent, hg, recGet_recSet]
      by_cases ho : obj = o
      · subst ho; simp [hg, isAllocOf]
      · simp [ho, isAllocOf, fun h => ho (by simpa using h)]
    · simp only [applyEvent, hg, isAllocOf]
      by_cases ho : obj = o
      · subst ho; simp [hg]
      · simp [fun h => ho (by simpa using h)]
  | write obj key v cp =>
    rcases hg : recGet S.objects obj with _ | ob
    · simp [applyEvent, hg, isAllocOf]
    · simp only [applyEvent, hg, recGet_recSet, isAllocOf]
      by_cases ho : obj = o
      · subst ho; simp [hg]
      · simp [ho]
  | del obj key cp =>
    rcases hg : recGet S.objects obj with _ | ob
    · simp [applyEvent, hg, isAllocOf]
    · simp only [applyEvent, hg, recGet_recSet, isAllocOf]
      by_cases ho : obj = o
      · subst ho; simp [hg]
      · simp [ho]
  | rootSet name v cp => simp [applyEvent, isAllocOf]
  | rootDel name cp => simp [applyEvent, isAllocOf]

theorem present_applyEvents (S : HeapState) (E : List DeltaEvent) (sid : Nat) (o : String) :
    (recGet (applyEvents S E sid).objects o).isSome =
      ((recGet S.objects o).isSome || E.any (isAllocOf o)) := by
  induction E generalizing S with
  | nil => simp [applyEvents]
  | cons e rest ih =>
    have : applyEvents S (e :: rest) sid = applyEvents (applyEvent S e sid) rest sid := rfl
    rw [this, ih, present_applyEvent]
    simp [Bool.or_assoc]

/-- The per-root automaton step. -/
def rootStep (name : String) (x : Option ValueRef) : DeltaEvent → Option ValueRef
  | .rootSet n v _ => if n = name then some v else x
  | .rootDel n _ => if n = name then none else x
  | _ => x

theorem roots_applyEvent (S : HeapState) (e : DeltaEvent) (sid : Nat) (name : String) :
    recGet (applyEvent S e sid).roots name = rootStep name (recGet S.roots name) e := by
  cases e with
  | alloc obj k cn =>
    rcases hg : recGet S.objects obj with _ | ob <;> simp [applyEvent, hg, rootStep]
  | write obj key v cp =>
    rcases hg : recGet S.objects obj with _ | ob <;> simp [applyEvent, hg, rootStep]
  | del obj key cp =>
    rcases hg : recGet S.objects obj with _ | ob <;> simp [applyEvent, hg, rootStep]
  | rootSet n v cp => simp [applyEvent, rootStep, recGet_recSet]
  | rootDel n cp => simp [applyEvent, rootStep, recGet_recDel]

theorem roots_applyEvents (S : HeapState) (E : List DeltaEvent) (sid : Nat) (name : String) :
    recGet (applyEvents S E sid).roots name = E.foldl (rootStep name) (recGet S.roots name) := by
  induction E generalizing S with
  | nil => simp [applyEvents]
  | cons e rest ih =>
    have : applyEvents S (e :: rest) sid = applyEvents (applyEvent S e sid) rest sid := rfl
    rw [this, ih, roots_applyEvent]
    rfl

/-- The identity-carrying header of a heap object. -/
def hdrOf (ob : HeapObject) : String × ObjKind × Option String :=
  (ob.id, ob.objKind, ob.className)

/-- The per-object header automaton step: only an `alloc` of this object
can set the header, and only when the object is absent. -/
def hdrStep (obj : String) (x : Option (String × ObjKind × Option String)) :
    DeltaEvent → Option (String × ObjKind × Option String)
  | .alloc o k cn => if o = obj then orElseO x (some (obj, k, cn)) else x
  | _ => x

theorem hdr_applyEvent (S : HeapState) (e : DeltaEvent) (sid : Nat) (obj : String) :
    (recGet (applyEvent S e sid).objects obj).map hdrOf =
      hdrStep obj ((recGet S.objects obj).map hdrOf) e := by
  cases e with
  | alloc o k cn =>
    rcases hg : recGet S.objects o with _ | ob
    · simp only [applyEvent, hg, recGet_recSet]
      by_cases ho : o = obj
      · subst ho; simp [hdrStep, hg, orElseO, hdrOf]
      · simp [hdrStep, ho]
    · simp only [applyEvent, hg, hdrStep]
      by_cases ho : o = obj
      · subst ho; simp [hg, orElseO]
      · simp [ho]
  | write o key v cp =>
    rcases hg : recGet S.objects o with _ | ob
    · simp [applyEvent, hg, hdrStep]
    · simp only [applyEvent, hg, recGet_recSet, hdrStep]
      by_cases ho : o = obj
      · subst ho; simp [hg, hdrOf]
      · simp [ho]
  | del o key cp =>
    rcases hg : recGet S.objects o with _ | ob
    · simp [applyEvent, hg, hdrStep]
    · simp only [applyEvent, hg, recGet_recSet, hdrStep]
      by_cases ho : o = obj
      · subst ho; simp [hg, hdrOf]
      · simp [ho]
  | rootSet n v cp => simp [applyEvent, hdrStep]
  | rootDel n cp => simp [applyEvent, hdrStep]

theorem hdr_applyEvents (S : HeapState) (E : List DeltaEvent) (sid : Nat) (obj : String) :
    (recGet (applyEvents S E sid).objects obj).map hdrOf =
      E.foldl (hdrStep obj) ((recGet S.objects obj).map hdrOf) := by
  induction E generalizing S with
  | nil => simp [applyEvents]
  | cons e rest ih =>
    have : applyEvents S (e :: rest) sid = applyEvents (applyEvent S e sid) rest sid := rfl
    rw [this, ih, hdr_applyEvent]
    rfl

/-- One prop of one object, as seen through the object lookup: `none`
while the object is absent, `some (recGet props key)` once present. -/
def propOf (key : String) (x : Option HeapObject) : Option (Option ValueRef) :=
  x.map (fun ob => recGet ob.props key)

/-- The per-prop automaton step, mirroring the guards of `applyEvent`:
`alloc` promotes an absent object to an empty one, guarded `write`/
`delete` of this key act only when the object is present. -/
def propStep (obj key : String) (x : Option (Option ValueRef)) :
    DeltaEvent → Option (Option ValueRef)
  | .alloc o _ _ =>
    if o = obj then (match x with | none => some none | some w => some w) else x
  | .write o k v _ =>
    if o = obj then
      (match x with
       | none => none
       | some w => if k = key then some (some v) else some w)
    else x
  | .del o k _ =>
    if o = obj then
      (match x with
       | none => none
       | some w => if k = key then some none else some w)
    else x
  | _ => x

theorem prop_applyEvent (S : HeapState) (e : DeltaEvent) (sid : Nat) (obj key : String) :
    propOf key (recGet (applyEvent S e sid).objects obj) =
      propStep obj key (propOf key (recGet S.objects obj)) e := by
  cases e with
  | alloc o k cn =>
    rcases hg : recGet S.objects o with _ | ob
    · simp only [applyEvent, hg, recGet_recSet]
      by_cases ho : o = obj
      · subst ho; simp [propStep, propOf, hg, recGet]
      · simp [propStep, ho]
    · simp only [applyEvent, hg, propStep]
      by_cases ho : o = obj
      · subst ho; simp [hg, propOf]
      · simp [ho]
  | write o k v cp =>
    rcases hg : recGet S.objects o with _ | ob
    · simp only [applyEvent, hg, propStep]
      by_cases ho : o = obj
      · subst ho; simp [hg, propOf]
      · simp [ho]
    · simp only [applyEvent, hg, recGet_recSet, propStep]
      by_cases ho : o = obj
      · subst ho
        simp only [if_pos, propOf, Option.map_some, hg, recGet_recSet]
        by_cases hk : k = key <;> simp [hk, recGet_recSet]
      · simp [ho]
  | del o k cp =>
    rcases hg : recGet S.objects o with _ | ob
    · simp only [applyEvent, hg, propStep]
      by_cases ho : o = obj
      · subst ho; simp [hg, propOf]
      · simp [ho]
    · simp only [applyEvent, hg, recGet_recSet, propStep]
      by_cases ho : o = obj
      · subst ho
        simp only [if_pos, propOf, Option.map_some, hg, recGet_recDel]
        by_cases hk : k = key <;> simp [hk, recGet_recDel]
      · simp [ho]
  | rootSet n v cp => simp [applyEvent, propStep]
  | rootDel n cp => simp [applyEvent, propStep]

theorem prop_applyEvents (S : HeapState) (E : List DeltaEvent) (sid : Nat) (obj key : String) :
    propOf key (recGet (applyEvents S E sid).objects obj) =
      E.foldl (propStep obj key) (propOf key (recGet S.objects obj)) := by
  induction E generalizing S with
  | nil => simp [applyEvents]
  | cons e rest ih =>
    have : applyEvents S (e :: rest) sid = applyEvents (applyEvent S e sid) rest sid := rfl
    rw [this, ih, prop_applyEvent]
    rfl

/-- The per-lastWrite-key automaton step (valid along runs where every
`write`/`delete` guard passes). -/
def lwStep (κ : String) (sid : Nat) (x : Option LastWrite) : DeltaEvent → Option LastWrite
  | .write o k _ cp => if lwKey o k = κ then some ⟨sid, cp⟩ else x
  | .del o k cp => if lwKey o k = κ then some ⟨sid, cp⟩ else x
  | .rootSet n _ cp => if rootWriteKey n = κ then some ⟨sid, cp⟩ else x
  | .rootDel n cp => if rootWriteKey n = κ then some ⟨sid, cp⟩ else x
  | .alloc _ _ _ => x

/-- All `write`/`delete` guards pass along the application of `E` to `S`:
each guarded event only ever targets an object present at that point. -/
def guardsOk : HeapState → List DeltaEvent → Nat → Prop
  | _, [], _ => True
  | S, e :: rest, sid =>
    (∀ obj, evTargetW e = some obj → (recGet S.objects obj).isSome = true) ∧
    guardsOk (applyEvent S e sid) rest sid

theorem lw_applyEvent (S : HeapState) (e : DeltaEvent) (sid : Nat) (κ : String)
    (hg : ∀ obj, evTargetW e = some obj → (recGet S.objects obj).isSome = true) :
    recGet (applyEvent S e sid).lastWrite κ = lwStep κ sid (recGet S.lastWrite κ) e := by
  cases e with
  | alloc o k cn =>
    rcases hob : recGet S.objects o with _ | ob <;> simp [applyEvent, hob, lwStep]
  | write o k v cp =>
    have := hg o (by simp [evTargetW])
    rcases hob : recGet S.objects o with _ | ob
    · rw [hob] at this; simp at this
    · simp [applyEvent, hob, lwStep, recGet_recSet]
  | del o k cp =>
    have := hg o (by simp [evTargetW])
    rcases hob : recGet S.objects o with _ | ob
    · rw [hob] at this; simp at this
    · simp [applyEvent, hob, lwStep, recGet_recSet]
  | rootSet n v cp => simp [applyEvent, lwStep, recGet_recSet]
  | rootDel n cp => simp [applyEvent, lwStep, recGet_recSet]

theorem lw_applyEvents (S : HeapState) (E : List DeltaEvent) (sid : Nat) (κ : String)
    (h : guardsOk S E sid) :
    recGet (applyEvents S E sid).lastWrite κ = E.foldl (lwStep κ sid) (recGet S.lastWrite κ) := by
  induction E generalizing S with
  | nil => simp [applyEvents]
  | cons e rest ih =>
    obtain ⟨h1, h2⟩ := h
    have hstep : applyEvents S (e :: rest) sid = applyEvents (applyEvent S e sid) rest sid := rfl
    rw [hstep, ih _ h2, lw_applyEvent S e sid κ h1]
    rfl

/-! Classification of the per-location automata: each fold is constant,
the identity, or an `orElse` against a fixed default, which makes
re-application a no-op. -/

theorem foldl_const_or_id {α β : Type} (f : α → β → α) (E : List β)
    (h : ∀ e ∈ E, (∀ x y, f x e = f y e) ∨ (∀ x, f x e = x)) :
    (∀ x y, E.foldl f x = E.foldl f y) ∨ (∀ x, E.foldl f x = x) := by
  induction E with
  | nil => right; intro x; rfl
  | cons e rest ih =>
    have hrest := ih (fun e' he' => h e' (List.mem_cons_of_mem _ he'))
    rcases h e (List.mem_cons_self _ _) with hc | hid
    · left
      intro x y
      show rest.foldl f (f x e) = rest.foldl f (f y e)
      rw [hc x y]
    · rcases hrest with hrc | hri
      · left
        intro x y
        exact hrc _ _
      · right
        intro x
        show rest.foldl f (f x e) = x
        rw [hid x]
        exact hri x

theorem foldl_reapply_of_const_or_id {α β : Type} (f : α → β → α) (E : List β) (x : α)
    (h : (∀ x y, E.foldl f x = E.foldl f y) ∨ (∀ x, E.foldl f x = x)) :
    E.foldl f (E.foldl f x) = E.foldl f x := by
  rcases h with hc | hid
  · exact hc _ _
  · rw [hid (E.foldl f x)]

theorem rootStep_const_or_id (name : String) (e : DeltaEvent) :
    (∀ x y, rootStep name x e = rootStep name y e) ∨ (∀ x, rootStep name x e = x) := by
  cases e with
  | rootSet n v cp =>
    by_cases hn : n = name
    · left; intro x y; simp [rootStep, hn]
    · right; intro x; simp [rootStep, hn]
  | rootDel n cp =>
    by_cases hn : n = name
    · left; intro x y; simp [rootStep, hn]
    · right; intro x; simp [rootStep, hn]
  | alloc o k cn => right; intro x; simp [rootStep]
  | write o k v cp => right; intro x; simp [rootStep]
  | del o k cp => right; intro x; simp [rootStep]

theorem lwStep_const_or_id (κ : String) (sid : Nat) (e : DeltaEvent) :
    (∀ x y, lwStep κ sid x e = lwStep κ sid y e) ∨ (∀ x, lwStep κ sid x e = x) := by
  cases e with
  | alloc o k cn => right; intro x; simp [lwStep]
  | write o k v cp =>
    by_cases hκ : lwKey o k = κ
    · left; intro x y; simp [lwStep, hκ]
    · right; intro x; simp [lwStep, hκ]
  | del o k cp =>
    by_cases hκ : lwKey o k = κ
    · left; intro x y; simp [lwStep, hκ]
    · right; intro x; simp [lwStep, hκ]
  | rootSet n v cp =>
    by_cases hκ : rootWriteKey n = κ
    · left; intro x y; simp [lwStep, hκ]
    · right; intro x; simp [lwStep, hκ]
  | rootDel n cp =>
    by_cases hκ : rootWriteKey n = κ
    · left; intro x y; simp [lwStep, hκ]
    · right; intro x; simp [lwStep, hκ]

theorem orElseO_some {α : Type} (x : Option α) (c : α) : (orElseO x (some c)).isSome = true := by
  cases x <;> simp [orElseO]

theorem orElseO_of_isSome {α : Type} (x : Option α) (y : Option α) (h : x.isSome = true) :
    orElseO x y = x := by
  cases x
  · simp at h
  · rfl

theorem orElseO_idem {α : Type} (x : Option α) (c : α) :
    orElseO (orElseO x (some c)) (some c) = orElseO x (some c) :=
  orElseO_of_isSome _ _ (orElseO_some x c)

theorem hdrStep_orElse_or_id (obj : String) (e : DeltaEvent) :
    (∃ c, ∀ x, hdrStep obj x e = orElseO x (some c)) ∨ (∀ x, hdrStep obj x e = x) := by
  cases e with
  | alloc o k cn =>
    by_cases ho : o = obj
    · subst ho; left; exact ⟨(o, k, cn), fun x => by simp [hdrStep]⟩
    · right; intro x; simp [hdrStep, ho]
  | write o k v cp => right; intro x; simp [hdrStep]
  | del o k cp => right; intro x; simp [hdrStep]
  | rootSet n v cp => right; intro x; simp [hdrStep]
  | rootDel n cp => right; intro x; simp [hdrStep]

theorem foldl_orElse_cls {α β : Type} (f : Option α → β → Option α) (E : List β)
    (h : ∀ e ∈ E, (∃ c, ∀ x, f x e = orElseO x (some c)) ∨ (∀ x, f x e = x)) :
    (∃ c, ∀ x, E.foldl f x = orElseO x (some c)) ∨ (∀ x, E.foldl f x = x) := by
  induction E with
  | nil => right; intro x; rfl
  | cons e rest ih =>
    have hrest := ih (fun e' he' => h e' (List.mem_cons_of_mem _ he'))
    rcases h e (List.mem_cons_self _ _) with ⟨c₀, hc⟩ | hid
    · left
      refine ⟨c₀, fun x => ?_⟩
      show rest.foldl f (f x e) = _
      rw [hc x]
      rcases hrest with ⟨c, hrc⟩ | hri
      · rw [hrc, orElseO_of_isSome _ _ (orElseO_some x c₀)]
      · rw [hri]
    · rcases hrest with ⟨c, hrc⟩ | hri
      · left
        exact ⟨c, fun x => by show rest.foldl f (f x e) = _; rw [hid x, hrc]⟩
      · right
        intro x
        show rest.foldl f (f x e) = x
        rw [hid x]
        exact hri x

theorem foldl_reapply_of_orElse_cls {α β : Type} (f : Option α → β → Option α) (E : List β)
    (x : Option α)
    (h : (∃ c, ∀ x, E.foldl f x = orElseO x (some c)) ∨ (∀ x, E.foldl f x = x)) :
    E.foldl f (E.foldl f x) = E.foldl f x := by
  rcases h with ⟨c, hc⟩ | hid
  · rw [hc (E.foldl f x), hc x, orElseO_idem]
  · rw [hid (E.foldl f x)]

theorem guardsOk_mono {S S' : HeapState} {E : List DeltaEvent} {sid sid' : Nat}
    (hp : ∀ o, (recGet S.objects o).isSome = true → (recGet S'.objects o).isSome = true)
    (h : guardsOk S E sid) : guardsOk S' E sid' := by
  induction E generalizing S S' with
  | nil => trivial
  | cons e rest ih =>
    obtain ⟨h1, h2⟩ := h
    refine ⟨fun obj ht => hp obj (h1 obj ht), ih ?_ h2⟩
    intro o ho
    rw [present_applyEvent] at ho ⊢
    rcases Bool.or_eq_true_iff.mp ho with hl | hr
    · exact Bool.or_eq_true_iff.mpr (Or.inl (hp o hl))
    · exact Bool.or_eq_true_iff.mpr (Or.inr hr)

theorem guardsOk_double {S : HeapState} {E : List DeltaEvent} {sid : Nat}
    (h : guardsOk S E sid) : guardsOk (applyEvents S E sid) E sid :=
  guardsOk_mono
    (fun o ho => by rw [present_applyEvents]; exact Bool.or_eq_true_iff.mpr (Or.inl ho)) h

/-- Alloc-before-write local to an event list: every guarded mutation is
either backed by an object present at the start or by an earlier `alloc`
within the list. -/
def wfW (obj : String) : List DeltaEvent → Bool → Prop
  | [], _ => True
  | e :: rest, pres =>
    (evTargetW e = some obj → pres = true) ∧ wfW obj rest (pres || isAllocOf obj e)

theorem guardsOk_wfW {S : HeapState} {E : List DeltaEvent} {sid : Nat}
    (h : guardsOk S E sid) (obj : String) :
    wfW obj E ((recGet S.objects obj).isSome) := by
  induction E generalizing S with
  | nil => trivial
  | cons e rest ih =>
    obtain ⟨h1, h2⟩ := h
    refine ⟨fun ht => h1 obj ht, ?_⟩
    have := ih h2
    rwa [present_applyEvent] at this

theorem propStep_some {obj key : String} {x : Option (Option ValueRef)}
    (h : x.isSome = true) (e : DeltaEvent) : (propStep obj key x e).isSome = true := by
  obtain ⟨w, rfl⟩ := Option.isSome_iff_exists.mp h
  cases e with
  | alloc o k cn => by_cases ho : o = obj <;> simp [propStep, ho]
  | write o k v cp =>
    by_cases ho : o = obj
    · by_cases hk : k = key <;> simp [propStep, ho, hk]
    · simp [propStep, ho]
  | del o k cp =>
    by_cases ho : o = obj
    · by_cases hk : k = key <;> simp [propStep, ho, hk]
    · simp [propStep, ho]
  | rootSet n v cp => simp [propStep]
  | rootDel n cp => simp [propStep]

theorem propFold_some_mono (obj key : String) (E : List DeltaEvent) :
    ∀ x : Option (Option ValueRef), x.isSome = true →
      (E.foldl (propStep obj key) x).isSome = true := by
  induction E with
  | nil => intro x hx; exact hx
  | cons e rest ih =>
    intro x hx
    exact ih _ (propStep_some hx e)

theorem propFold_some_cls (obj key : String) (E : List DeltaEvent) :
    (∀ x y : Option (Option ValueRef), x.isSome = true → y.isSome = true →
        E.foldl (propStep obj key) x = E.foldl (propStep obj key) y) ∨
      (∀ x : Option (Option ValueRef), x.isSome = true → E.foldl (propStep obj key) x = x) := by
  induction E with
  | nil => right; intro x _; rfl
  | cons e rest ih =>
    have hstep : (∀ x y : Option (Option ValueRef), x.isSome = true → y.isSome = true →
        propStep obj key x e = propStep obj key y e) ∨
        (∀ x : Option (Option ValueRef), x.isSome = true → propStep obj key x e = x) := by
      cases e with
      | alloc o k cn =>
        right
        intro x hx
        obtain ⟨w, rfl⟩ := Option.isSome_iff_exists.mp hx
        by_cases ho : o = obj <;> simp [propStep, ho]
      | write o k v cp =>
        by_cases ho : o = obj
        · by_cases hk : k = key
          · left
            intro x y hx hy
            obtain ⟨w, rfl⟩ := Option.isSome_iff_exists.mp hx
            obtain ⟨w', rfl⟩ := Option.isSome_iff_exists.mp hy
            simp [propStep, ho, hk]
          · right
            intro x hx
            obtain ⟨w, rfl⟩ := Option.isSome_iff_exists.mp hx
            simp [propStep, ho, hk]
        · right
          intro x hx
          simp [propStep, ho]
      | del o k cp =>
        by_cases ho : o = obj
        · by_cases hk : k = key
          · left
            intro x y hx hy
            obtain ⟨w, rfl⟩ := Option.isSome_iff_exists.mp hx
            obtain ⟨w', rfl⟩ := Option.isSome_iff_exists.mp hy
            simp [propStep, ho, hk]
          · right
            intro x hx
            obtain ⟨w, rfl⟩ := Option.isSome_iff_exists.mp hx
            simp [propStep, ho, hk]
        · right
          intro x hx
          simp [propStep, ho]
      | rootSet n v cp => right; intro x hx; simp [propStep]
      | rootDel n cp => right; intro x hx; simp [propStep]
    rcases hstep with hc | hid
    · left
      intro x y hx hy
      show rest.foldl _ (propStep obj key x e) = rest.foldl _ (propStep obj key y e)
      rw [hc x y hx hy]
    · rcases ih with ihc | ihi
      · left
        intro x y hx hy
        exact ihc _ _ (propStep_some hx e) (propStep_some hy e)
      · right
        intro x hx
        show rest.foldl _ (propStep obj key x e) = x
        rw [hid x hx]
        exact ihi x hx

theorem propFold_none (obj key : String) (E : List DeltaEvent) (h : wfW obj E false) :
    E.foldl (propStep obj key) (E.foldl (propStep obj key) none) =
      E.foldl (propStep obj key) none := by
  induction E with
  | nil => rfl
  | cons e rest ih =>
    obtain ⟨hg, hrest⟩ := h
    by_cases halloc : isAllocOf obj e = true
    · have hstep_some : ∀ x : Option (Option ValueRef), x.isSome = true →
          propStep obj key x e = x := by
        intro x hx
        obtain ⟨w, rfl⟩ := Option.isSome_iff_exists.mp hx
        cases e with
        | alloc o k cn => simp [propStep]
        | write o k v cp => simp [isAllocOf] at halloc
        | del o k cp => simp [isAllocOf] at halloc
        | rootSet n v cp => simp [isAllocOf] at halloc
        | rootDel n cp => simp [isAllocOf] at halloc
      have hz : ((e :: rest).foldl (propStep obj key) none).isSome = true := by
        show (rest.foldl (propStep obj key) (propStep obj key none e)).isSome = true
        apply propFold_some_mono
        cases e with
        | alloc o k cn =>
          simp only [isAllocOf, decide_eq_true_eq] at halloc
          simp [propStep, halloc]
        | write o k v cp => simp [isAllocOf] at halloc
        | del o k cp => simp [isAllocOf] at halloc
        | rootSet n v cp => simp [isAllocOf] at halloc
        | rootDel n cp => simp [isAllocOf] at halloc
      show rest.foldl (propStep obj key)
          (propStep obj key ((e :: rest).foldl (propStep obj key) none) e) = _
      rw [hstep_some _ hz]
      show rest.foldl (propStep obj key)
          (rest.foldl (propStep obj key) (propStep obj key none e)) = _
      rcases propFold_some_cls obj key rest with hc | hid
      · exact hc _ _ (propFold_some_mono obj key rest _ (by
          cases e with
          | alloc o k cn =>
            simp only [isAllocOf, decide_eq_true_eq] at halloc
            simp [propStep, halloc]
          | write o k v cp => simp [isAllocOf] at halloc
          | del o k cp => simp [isAllocOf] at halloc
          | rootSet n v cp => simp [isAllocOf] at halloc
          | rootDel n cp => simp [isAllocOf] at halloc)) (by
          cases e with
          | alloc o k cn =>
            simp only [isAllocOf, decide_eq_true_eq] at halloc
            simp [propStep, halloc]
          | write o k v cp => simp [isAllocOf] at halloc
          | del o k cp => simp [isAllocOf] at halloc
          | rootSet n v cp => simp [isAllocOf] at halloc
          | rootDel n cp => simp [isAllocOf] at halloc)
      · exact hid _ hz
    · have hid : ∀ x : Option (Option ValueRef), propStep obj key x e = x := by
        intro x
        cases e with
        | alloc o k cn =>
          have ho : ¬ o = obj := by
            intro hh
            exact halloc (by simp [isAllocOf, hh])
          simp [propStep, ho]
        | write o k v cp =>
          have ho : ¬ o = obj := by
            intro hh
            subst hh
            simpa using hg (by simp [evTargetW])
          simp [propStep, ho]
        | del o k cp =>
          have ho : ¬ o = obj := by
            intro hh
            subst hh
            simpa using hg (by simp [evTargetW])
          simp [propStep, ho]
        | rootSet n v cp => simp [propStep]
        | rootDel n cp => simp [propStep]
      have hrest' : wfW obj rest false := by
        have hfa : isAllocOf obj e = false := by
          cases hv : isAllocOf obj e
          · rfl
          · exact absurd hv halloc
        simpa [hfa] using hrest
      show rest.foldl (propStep obj key)
          (propStep obj key ((e :: rest).foldl (propStep obj key) none) e) =
        (e :: rest).foldl (propStep obj key) none
      simp only [List.foldl_cons, hid]
      exact ih hrest'

theorem propFold_reapply (obj key : String) (E : List DeltaEvent) (x : Option (Option ValueRef))
    (h : wfW obj E x.isSome) :
    E.foldl (propStep obj key) (E.foldl (propStep obj key) x) =
      E.foldl (propStep obj key) x := by
  cases x with
  | none => exact propFold_none obj key E (by simpa using h)
  | some w =>
    rcases propFold_some_cls obj key E with hc | hid
    · exact hc _ _ (propFold_some_mono obj key E _ (by simp)) (by simp)
    · rw [hid (some w) (by simp)]
      exact hid (some w) (by simp)

/-! Structural ("deep") equality of heap states: JS deep equality
compares records by their properties, not by insertion order, so two
`HeapState`s are deep-equal exactly when every lookup agrees. -/

/-- Deep equality of two heap objects. -/
def objEquiv (a b : HeapObject) : Prop :=
  a.id = b.id ∧ a.objKind = b.objKind ∧ a.className = b.className ∧
    ∀ k, recGet a.props k = recGet b.props k

/-- Deep equality lifted to optional objects. -/
def objEquivO : Option HeapObject → Option HeapObject → Prop
  | none, none => True
  | some a, some b => objEquiv a b
  | _, _ => False

/-- Deep (structural) equality of heap states: all three records agree on
every lookup. -/
def HeapState.Equiv (S S' : HeapState) : Prop :=
  (∀ o, objEquivO (recGet S.objects o) (recGet S'.objects o)) ∧
  (∀ n, recGet S.roots n = recGet S'.roots n) ∧
  (∀ κ, recGet S.lastWrite κ = recGet S'.lastWrite κ)

theorem objEquiv_refl (a : HeapObject) : objEquiv a a :=
  ⟨rfl, rfl, rfl, fun _ => rfl⟩

theorem objEquivO_refl (x : Option HeapObject) : objEquivO x x := by
  cases x
  · trivial
  · exact objEquiv_refl _

theorem HeapState.Equiv.refl (S : HeapState) : HeapState.Equiv S S :=
  ⟨fun _ => objEquivO_refl _, fun _ => rfl, fun _ => rfl⟩

theorem HeapState.Equiv.of_eq {S S' : HeapState} (h : S = S') : HeapState.Equiv S S' := by
  subst h; exact HeapState.Equiv.refl S

theorem objEquivO_hdr {x y : Option HeapObject} (h : objEquivO x y) :
    x.map hdrOf = y.map hdrOf := by
  cases x <;> cases y <;> try simp [objEquivO] at h
  · rfl
  · obtain ⟨h1, h2, h3, _⟩ := h
    simp [hdrOf, h1, h2, h3]

theorem objEquivO_prop {x y : Option HeapObject} (h : objEquivO x y) (k : String) :
    propOf k x = propOf k y := by
  cases x <;> cases y <;> try simp [objEquivO] at h
  · rfl
  · obtain ⟨_, _, _, h4⟩ := h
    simp [propOf, h4 k]

theorem objEquivO_of {x y : Option HeapObject}
    (hhdr : x.map hdrOf = y.map hdrOf) (hprop : ∀ k, propOf k x = propOf k y) :
    objEquivO x y := by
  cases x <;> cases y
  · trivial
  · simp at hhdr
  · simp at hhdr
  · have hh := Option.some.inj hhdr
    refine ⟨?_, ?_, ?_, ?_⟩
    · exact congrArg Prod.fst hh
    · exact congrArg (fun p => p.2.1) hh
    · exact congrArg (fun p => p.2.2) hh
    · intro k
      have := hprop k
      simpa [propOf] using this

theorem objEquivO_present {x y : Option HeapObject} (h : objEquivO x y) :
    x.isSome = y.isSome := by
  cases x <;> cases y
  · rfl
  · exact h.elim
  · exact h.elim
  · rfl

/-- `alloc` never touches `lastWrite`. -/
theorem lastWrite_applyEvent_alloc (S : HeapState) (obj : String) (k : ObjKind)
    (cn : Option String) (sid : Nat) :
    (applyEvent S (.alloc obj k cn) sid).lastWrite = S.lastWrite := by
  rcases hg : recGet S.objects obj with _ | ob <;> simp [applyEvent, hg]

theorem applyEvent_congr {S S' : HeapState} (h : HeapState.Equiv S S') (e : DeltaEvent)
    (sid : Nat) : HeapState.Equiv (applyEvent S e sid) (applyEvent S' e sid) := by
  obtain ⟨hobj, hroot, hlw⟩ := h
  refine ⟨?_, ?_, ?_⟩
  · intro o
    apply objEquivO_of
    · rw [hdr_applyEvent, hdr_applyEvent, objEquivO_hdr (hobj o)]
    · intro k
      rw [prop_applyEvent, prop_applyEvent, objEquivO_prop (hobj o) k]
  · intro n
    rw [roots_applyEvent, roots_applyEvent, hroot n]
  · intro κ
    cases e with
    | alloc obj k cn =>
      rw [lastWrite_applyEvent_alloc, lastWrite_applyEvent_alloc]
      exact hlw κ
    | write obj key v cp =>
      have hpres := objEquivO_present (hobj obj)
      rcases hS : recGet S.objects obj with _ | a
      · rcases hS' : recGet S'.objects obj with _ | b
        · simp [applyEvent, hS, hS', hlw κ]
        · rw [hS, hS'] at hpres; simp at hpres
      · rcases hS' : recGet S'.objects obj with _ | b
        · rw [hS, hS'] at hpres; simp at hpres
        · simp [applyEvent, hS, hS', recGet_recSet, hlw κ]
    | del obj key cp =>
      have hpres := objEquivO_present (hobj obj)
      rcases hS : recGet S.objects obj with _ | a
      · rcases hS' : recGet S'.objects obj with _ | b
        · simp [applyEvent, hS, hS', hlw κ]
        · rw [hS, hS'] at hpres; simp at hpres
      · rcases hS' : recGet S'.objects obj with _ | b
        · rw [hS, hS'] at hpres; simp at hpres
        · simp [applyEvent, hS, hS', recGet_recSet, hlw κ]
    | rootSet n v cp => simp [applyEvent, recGet_recSet, hlw κ]
    | rootDel n cp => simp [applyEvent, recGet_recSet, hlw κ]

theorem applyEvents_congr {S S' : HeapState} (h : HeapState.Equiv S S') (E : List DeltaEvent)
    (sid : Nat) : HeapState.Equiv (applyEvents S E sid) (applyEvents S' E sid) := by
  induction E generalizing S S' with
  | nil => exact h
  | cons e rest ih => exact ih (applyEvent_congr h e sid)

theorem applyStepIdx_congr {S S' : HeapState} (h : HeapState.Equiv S S') (T : TraceLog)
    (s : Nat) : HeapState.Equiv (applyStepIdx T S s) (applyStepIdx T S' s) := by
  unfold applyStepIdx
  cases T.steps.get? s with
  | none => exact h
  | some meta => exact applyEvents_congr h _ _

theorem foldSteps_congr {S S' : HeapState} (h : HeapState.Equiv S S') (T : TraceLog)
    (l : List Nat) :
    HeapState.Equiv (l.foldl (fun st s => applyStepIdx T st s) S)
      (l.foldl (fun st s => applyStepIdx T st s) S') := by
  induction l generalizing S S' with
  | nil => exact h
  | cons a rest ih => exact ih (applyStepIdx_congr h T a)

/-- Re-applying an already-applied event list leaves the state deep-equal,
provided every guarded mutation in the list found its target present —
the alloc-before-write discipline of recorder traces. -/
theorem applyEvents_reapply {S : HeapState} {E : List DeltaEvent} {sid : Nat}
    (h : guardsOk S E sid) :
    HeapState.Equiv (applyEvents (applyEvents S E sid) E sid) (applyEvents S E sid) := by
  refine ⟨?_, ?_, ?_⟩
  · intro o
    apply objEquivO_of
    · rw [hdr_applyEvents, hdr_applyEvents]
      exact foldl_reapply_of_orElse_cls _ _ _
        (foldl_orElse_cls _ _ (fun e _ => hdrStep_orElse_or_id o e))
    · intro k
      rw [prop_applyEvents, prop_applyEvents]
      apply propFold_reapply
      have := guardsOk_wfW h o
      have hiso : (propOf k (recGet S.objects o)).isSome = (recGet S.objects o).isSome := by
        cases recGet S.objects o <;> simp [propOf]
      rwa [← hiso] at this
  · intro n
    rw [roots_applyEvents, roots_applyEvents]
    exact foldl_reapply_of_const_or_id _ _ _
      (foldl_const_or_id _ _ (fun e _ => rootStep_const_or_id n e))
  · intro κ
    rw [lw_applyEvents _ _ _ _ (guardsOk_double h), lw_applyEvents _ _ _ _ h]
    exact foldl_reapply_of_const_or_id _ _ _
      (foldl_const_or_id _ _ (fun e _ => lwStep_const_or_id κ sid e))

/-! Slice and replay stability: appending events past every recorded
slice, or appending steps past a replayed range, never changes what the
range replays. -/

theorem evSlice_self (es : List DeltaEvent) (f : Nat) : evSlice es f f = [] := by
  simp [evSlice]

theorem evSlice_append (es : List DeltaEvent) (l : List DeltaEvent) (f t : Nat)
    (ht : t ≤ es.length) : evSlice (es ++ l) f t = evSlice es f t := by
  by_cases hft : f ≤ t
  · have hf : f ≤ es.length := le_trans hft ht
    unfold evSlice
    rw [List.drop_append_of_le_length hf]
    have : t - f ≤ (es.drop f).length := by
      simp [Nat.le_sub_iff_add_le hf]
      omega
    rw [List.take_append_of_le_length this]
  · have : t - f = 0 := by omega
    simp [evSlice, this]

theorem evSlice_concat_self (es : List DeltaEvent) (e : DeltaEvent) (f : Nat)
    (hf : f ≤ es.length) :
    evSlice (es ++ [e]) f (es.length + 1) = evSlice es f es.length ++ [e] := by
  unfold evSlice
  rw [List.drop_append_of_le_length hf]
  rw [List.take_of_length_le (by simp; omega)]
  rw [List.take_of_length_le (by simp)]

theorem applyStepIdx_of_fields {T T' : TraceLog} (hs : T'.steps = T.steps)
    (he : T'.events = T.events) (S : HeapState) (i : Nat) :
    applyStepIdx T' S i = applyStepIdx T S i := by
  unfold applyStepIdx
  rw [hs, he]

theorem foldSteps_of_fields {T T' : TraceLog} (hs : T'.steps = T.steps)
    (he : T'.events = T.events) (S : HeapState) (l : List Nat) :
    l.foldl (fun st s => applyStepIdx T' st s) S = l.foldl (fun st s => applyStepIdx T st s) S := by
  induction l generalizing S with
  | nil => rfl
  | cons a rest ih =>
    show rest.foldl _ (applyStepIdx T' S a) = rest.foldl _ (applyStepIdx T S a)
    rw [applyStepIdx_of_fields hs he, ih]

theorem replayUpTo_of_fields {T T' : TraceLog} (hs : T'.steps = T.steps)
    (he : T'.events = T.events) (n : Nat) : replayUpTo T' n = replayUpTo T n :=
  foldSteps_of_fields hs he _ _

theorem applyStepIdx_events_append {T : TraceLog} (l : List DeltaEvent) (S : HeapState) (i : Nat)
    (h : ∀ m, T.steps.get? i = some m → m.deltaTo ≤ T.events.length) :
    applyStepIdx { T with events := T.events ++ l } S i = applyStepIdx T S i := by
  unfold applyStepIdx
  dsimp only
  rcases hm : T.steps.get? i with _ | m
  · rfl
  · show applyEvents S (evSlice (T.events ++ l) m.deltaFrom m.deltaTo) i =
        applyEvents S (evSlice T.events m.deltaFrom m.deltaTo) i
    rw [evSlice_append _ _ _ _ (h m hm)]

theorem foldSteps_events_append {T : TraceLog} (l : List DeltaEvent) (S : HeapState)
    (idxs : List Nat)
    (h : ∀ i m, T.steps.get? i = some m → m.deltaTo ≤ T.events.length) :
    idxs.foldl (fun st s => applyStepIdx { T with events := T.events ++ l } st s) S =
      idxs.foldl (fun st s => applyStepIdx T st s) S := by
  induction idxs generalizing S with
  | nil => rfl
  | cons a rest ih =>
    show rest.foldl _ (applyStepIdx _ S a) = rest.foldl _ (applyStepIdx T S a)
    rw [applyStepIdx_events_append l S a (h a), ih]

theorem replayUpTo_events_append {T : TraceLog} (l : List DeltaEvent) (n : Nat)
    (h : ∀ i m, T.steps.get? i = some m → m.deltaTo ≤ T.events.length) :
    replayUpTo { T with events := T.events ++ l } n = replayUpTo T n :=
  foldSteps_events_append l _ _ h

theorem applyStepIdx_steps_append {T : TraceLog} (l : List StepMeta) (S : HeapState) (i : Nat)
    (hi : i < T.steps.length) :
    applyStepIdx { T with steps := T.steps ++ l } S i = applyStepIdx T S i := by
  unfold applyStepIdx
  simp only
  rw [List.get?_append hi]

theorem foldSteps_steps_append {T : TraceLog} (l : List StepMeta) (S : HeapState)
    (idxs : List Nat) (h : ∀ i ∈ idxs, i < T.steps.length) :
    idxs.foldl (fun st s => applyStepIdx { T with steps := T.steps ++ l } st s) S =
      idxs.foldl (fun st s => applyStepIdx T st s) S := by
  induction idxs generalizing S with
  | nil => rfl
  | cons a rest ih =>
    show rest.foldl _ (applyStepIdx _ S a) = rest.foldl _ (applyStepIdx T S a)
    rw [applyStepIdx_steps_append l S a (h a (List.mem_cons_self _ _))]
    exact ih _ (fun i hi => h i (List.mem_cons_of_mem _ hi))

theorem replayUpTo_steps_append {T : TraceLog} (l : List StepMeta) (n : Nat)
    (h : n ≤ T.steps.length) :
    replayUpTo { T with steps := T.steps ++ l } n = replayUpTo T n := by
  apply foldSteps_steps_append
  intro i hi
  have := List.mem_range.mp hi
  omega

theorem replayUpTo_succ (T : TraceLog) (n : Nat) :
    replayUpTo T (n + 1) = applyStepIdx T (replayUpTo T n) n := by
  unfold replayUpTo
  rw [List.range_succ, List.foldl_append]
  rfl

/-! The recorder's own state mutations agree with the replay engine's
`applyEvent` on the events it emits. -/

namespace CheckpointRecorder

theorem alloc_eq (r : CheckpointRecorder) (obj : String) (k : ObjKind) (cn : Option String) :
    r.alloc obj k cn =
      { r with
        state := applyEvent r.state (.alloc obj k cn) r.stepId
        trace := { r.trace with events := r.trace.events ++ [.alloc obj k cn] } } := by
  unfold alloc pushEvent
  rcases hg : recGet r.state.objects obj with _ | ob <;> simp [applyEvent, hg]

theorem write_eq_none (r : CheckpointRecorder) (obj key : String) (val : ValueRef)
    (cp : Option String) (h : recGet r.state.objects obj = none) :
    r.write obj key val cp = r := by
  unfold write
  rw [h]

theorem write_eq_some (r : CheckpointRecorder) (obj key : String) (val : ValueRef)
    (cp : Option String) (o : HeapObject) (h : recGet r.state.objects obj = some o) :
    r.write obj key val cp =
      { r with
        state := applyEvent r.state (.write obj key val cp) r.stepId
        trace := { r.trace with events := r.trace.events ++ [.write obj key val cp] } } := by
  unfold write pushEvent
  rw [h]
  simp [applyEvent, h]

theorem del_eq_none (r : CheckpointRecorder) (obj key : String) (cp : Option String)
    (h : recGet r.state.objects obj = none) : r.del obj key cp = r := by
  unfold del
  rw [h]

theorem del_eq_some (r : CheckpointRecorder) (obj key : String) (cp : Option String)
    (o : HeapObject) (h : recGet r.state.objects obj = some o) :
    r.del obj key cp =
      { r with
        state := applyEvent r.state (.del obj key cp) r.stepId
        trace := { r.trace with events := r.trace.events ++ [.del obj key cp] } } := by
  unfold del pushEvent
  rw [h]
  simp [applyEvent, h]

theorem rootSet_eq (r : CheckpointRecorder) (name : String) (val : ValueRef)
    (cp : Option String) :
    r.rootSet name val cp =
      { r with
        state := applyEvent r.state (.rootSet name val cp) r.stepId
        trace := { r.trace with events := r.trace.events ++ [.rootSet name val cp] } } := by
  unfold rootSet pushEvent
  simp [applyEvent]

theorem rootDel_eq (r : CheckpointRecorder) (name : String) (cp : Option String) :
    r.rootDel name cp =
      { r with
        state := applyEvent r.state (.rootDel name cp) r.stepId
        trace := { r.trace with events := r.trace.events ++ [.rootDel name cp] } } := by
  unfold rootDel pushEvent
  simp [applyEvent]

/-- Every recorder mutation changes the live heap exactly as `applyEvent`
replays the event it emits (and is a strict no-op on the heap when the
guard fails, matching `applyEvent`'s own guard). -/
theorem write_state (r : CheckpointRecorder) (obj key : String) (val : ValueRef)
    (cp : Option String) :
    (r.write obj key val cp).state = applyEvent r.state (.write obj key val cp) r.stepId := by
  rcases hg : recGet r.state.objects obj with _ | o
  · rw [write_eq_none r obj key val cp hg]
    simp [applyEvent, hg]
  · rw [write_eq_some r obj key val cp o hg]

theorem del_state (r : CheckpointRecorder) (obj key : String) (cp : Option String) :
    (r.del obj key cp).state = applyEvent r.state (.del obj key cp) r.stepId := by
  rcases hg : recGet r.state.objects obj with _ | o
  · rw [del_eq_none r obj key cp hg]
    simp [applyEvent, hg]
  · rw [del_eq_some r obj key cp o hg]

theorem alloc_state (r : CheckpointRecorder) (obj : String) (k : ObjKind) (cn : Option String) :
    (r.alloc obj k cn).state = applyEvent r.state (.alloc obj k cn) r.stepId := by
  rw [alloc_eq]

theorem rootSet_state (r : CheckpointRecorder) (name : String) (val : ValueRef)
    (cp : Option String) :
    (r.rootSet name val cp).state = applyEvent r.state (.rootSet name val cp) r.stepId := by
  rw [rootSet_eq]

theorem rootDel_state (r : CheckpointRecorder) (name : String) (cp : Option String) :
    (r.rootDel name cp).state = applyEvent r.state (.rootDel name cp) r.stepId := by
  rw [rootDel_eq]

end CheckpointRecorder

/-- The run invariant of a live `CheckpointRecorder`: everything one
needs to know about a recorder state reachable from the constructor by
hook calls. -/
structure RecInv (r : CheckpointRecorder) : Prop where
  snapEvery_pos : 1 ≤ r.snapshotEvery
  steps_len : r.trace.steps.length = max 1 r.stepId
  steps_idx : ∀ i m, r.trace.steps.get? i = some m → m.stepId = i
  at_zero : r.stepId = 0 → r.trace.steps = [initStepMeta] ∧ r.stepStartEventIndex = 0
  chain_head : ∀ m, r.trace.steps.get? 0 = some m → m.deltaFrom = 0
  chain_adj : ∀ i m m', r.trace.steps.get? i = some m → r.trace.steps.get? (i + 1) = some m' →
    m'.deltaFrom = m.deltaTo
  chain_last : ∀ m, r.trace.steps.getLast? = some m → m.deltaTo = r.stepStartEventIndex
  from_le_to : ∀ i m, r.trace.steps.get? i = some m → m.deltaFrom ≤ m.deltaTo
  ssei_le : r.stepStartEventIndex ≤ r.trace.events.length
  abw : ∀ i e, r.trace.events.get? i = some e → ∀ obj, evTargetW e = some obj →
    ∃ j, j < i ∧ ∃ k cn, r.trace.events.get? j = some (.alloc obj k cn)
  objs_alloced : ∀ obj, (recGet r.state.objects obj).isSome = true →
    ∃ j k cn, r.trace.events.get? j = some (.alloc obj k cn)
  live : r.state = applyEvents (replayUpTo r.trace r.trace.steps.length)
    (evSlice r.trace.events r.stepStartEventIndex r.trace.events.length) r.stepId
  snap_head : r.trace.snapshots.head? = some ⟨0, emptyHeap⟩
  snap_mem : ∀ snap ∈ r.trace.snapshots,
    (snap.at_ < r.stepId ∧
      deepCloneState (replayUpTo r.trace (snap.at_ + 1)) = some snap.state) ∨
    (snap.at_ = 0 ∧ snap.state = emptyHeap)
  idmap_range : ∀ p ∈ r.objIdMap, ∃ m, 1 ≤ m ∧ m < r.objIdSeq ∧ p.2 = mkObjId m
  idmap_inj : ∀ p ∈ r.objIdMap, ∀ q ∈ r.objIdMap, p.2 = q.2 → p.1 = q.1
  seq_pos : 1 ≤ r.objIdSeq

/-- Every recorded slice lies below the open tail: `deltaTo ≤
stepStartEventIndex` for every step. -/
theorem RecInv.deltaTo_le_ssei {r : CheckpointRecorder} (inv : RecInv r) :
    ∀ i m, r.trace.steps.get? i = some m → m.deltaTo ≤ r.stepStartEventIndex := by
  have hmono : ∀ d i m m', r.trace.steps.get? i = some m →
      r.trace.steps.get? (i + d) = some m' → m.deltaTo ≤ m'.deltaTo := by
    intro d
    induction d with
    | zero =>
      intro i m m' h h'
      rw [Nat.add_zero, h] at h'
      cases h'
      exact le_refl _
    | succ d ih =>
      intro i m m' h h'
      have hlt : i + 1 < r.trace.steps.length := by
        obtain ⟨hh, _⟩ := List.get?_eq_some.mp h'
        omega
      obtain ⟨mm, hmm⟩ : ∃ mm, r.trace.steps.get? (i + 1) = some mm :=
        ⟨_, List.get?_eq_get hlt⟩
      have h1 : mm.deltaFrom = m.deltaTo := inv.chain_adj i m mm h hmm
      have h2 : mm.deltaTo ≤ m'.deltaTo := by
        have : i + 1 + d = i + (d + 1) := by omega
        exact ih (i + 1) mm m' hmm (by rw [this]; exact h')
      have h3 : mm.deltaFrom ≤ mm.deltaTo := inv.from_le_to (i + 1) mm hmm
      omega
  intro i m h
  have hne : r.trace.steps ≠ [] := by
    intro hnil
    rw [hnil] at h
    simp at h
  obtain ⟨mlast, hlast⟩ := List.getLast?_isSome.mpr hne |> Option.isSome_iff_exists.mp
  have hlast' : r.trace.steps.get? (r.trace.steps.length - 1) = some mlast := by
    rw [← List.getLast?_eq_get?]
    exact hlast
  have hi : i < r.trace.steps.length := (List.get?_eq_some.mp h).1
  have hd : i + (r.trace.steps.length - 1 - i) = r.trace.steps.length - 1 := by omega
  have := hmono (r.trace.steps.length - 1 - i) i m mlast h (by rw [hd]; exact hlast')
  rw [inv.chain_last mlast hlast] at this
  exact this

theorem RecInv.deltaTo_le_events {r : CheckpointRecorder} (inv : RecInv r) :
    ∀ i m, r.trace.steps.get? i = some m → m.deltaTo ≤ r.trace.events.length :=
  fun i m h => le_trans (inv.deltaTo_le_ssei i m h) inv.ssei_le

theorem isAllocOf_eq {obj : String} {e : DeltaEvent} (h : isAllocOf obj e = true) :
    ∃ k cn, e = .alloc obj k cn := by
  cases e with
  | alloc o k cn =>
    simp only [isAllocOf, decide_eq_true_eq] at h
    exact ⟨k, cn, by rw [h]⟩
  | write o k v cp => simp [isAllocOf] at h
  | del o k cp => simp [isAllocOf] at h
  | rootSet n v cp => simp [isAllocOf] at h
  | rootDel n cp => simp [isAllocOf] at h

theorem applyEvents_snoc (S : HeapState) (E : List DeltaEvent) (e : DeltaEvent) (sid : Nat) :
    applyEvents S (E ++ [e]) sid = applyEvent (applyEvents S E sid) e sid := by
  unfold applyEvents
  rw [List.foldl_append]
  rfl

/-- Emitting one event whose guard passes preserves the run invariant. -/
theorem RecInv_push {r : CheckpointRecorder} (inv : RecInv r) (e : DeltaEvent)
    (habw : ∀ obj, evTargetW e = some obj → (recGet r.state.objects obj).isSome = true) :
    RecInv { r with
      state := applyEvent r.state e r.stepId
      trace := { r.trace with events := r.trace.events ++ [e] } } := by
  constructor
  case snapEvery_pos => exact inv.snapEvery_pos
  case steps_len => exact inv.steps_len
  case steps_idx => exact inv.steps_idx
  case at_zero => exact inv.at_zero
  case chain_head => exact inv.chain_head
  case chain_adj => exact inv.chain_adj
  case chain_last => exact inv.chain_last
  case from_le_to => exact inv.from_le_to
  case ssei_le =>
    show r.stepStartEventIndex ≤ (r.trace.events ++ [e]).length
    rw [List.length_append]
    exact le_trans inv.ssei_le (by omega)
  case abw =>
    intro i e' h obj ht
    by_cases hi : i < r.trace.events.length
    · rw [List.get?_append hi] at h
      obtain ⟨j, hj, k, cn, hje⟩ := inv.abw i e' h obj ht
      have hjlt : j < r.trace.events.length := by omega
      exact ⟨j, hj, k, cn, by rw [List.get?_append hjlt]; exact hje⟩
    · have hlen : i = r.trace.events.length := by
        by_contra hne
        have : i ≥ (r.trace.events ++ [e]).length := by
          rw [List.length_append]
          simp only [List.length_cons, List.length_nil]
          omega
        rw [List.get?_eq_none.mpr this] at h
        exact Option.noConfusion h
      subst hlen
      rw [List.get?_concat_length] at h
      cases h
      have hpres := habw obj ht
      obtain ⟨j, k, cn, hje⟩ := inv.objs_alloced obj hpres
      have hjlt : j < r.trace.events.length := (List.get?_eq_some.mp hje).1
      exact ⟨j, hjlt, k, cn, by rw [List.get?_append hjlt]; exact hje⟩
  case objs_alloced =>
    intro obj hpres
    dsimp only at hpres ⊢
    rw [present_applyEvent] at hpres
    rcases Bool.or_eq_true_iff.mp hpres with hold | halloc
    · obtain ⟨j, k, cn, hje⟩ := inv.objs_alloced obj hold
      have hjlt : j < r.trace.events.length := (List.get?_eq_some.mp hje).1
      exact ⟨j, k, cn, by rw [List.get?_append hjlt]; exact hje⟩
    · obtain ⟨k, cn, rfl⟩ := isAllocOf_eq halloc
      exact ⟨r.trace.events.length, k, cn, List.get?_concat_length _ _⟩
  case live =>
    show applyEvent r.state e r.stepId =
      applyEvents (replayUpTo { r.trace with events := r.trace.events ++ [e] }
          r.trace.steps.length)
        (evSlice (r.trace.events ++ [e]) r.stepStartEventIndex (r.trace.events ++ [e]).length)
        r.stepId
    rw [replayUpTo_events_append [e] _ inv.deltaTo_le_events]
    rw [show (r.trace.events ++ [e]).length = r.trace.events.length + 1 by simp]
    rw [evSlice_concat_self _ _ _ inv.ssei_le]
    rw [applyEvents_snoc]
    rw [← inv.live]
  case snap_head => exact inv.snap_head
  case snap_mem =>
    intro snap hmem
    rcases inv.snap_mem snap hmem with ⟨hlt, hst⟩ | hzero
    · left
      refine ⟨hlt, ?_⟩
      rw [replayUpTo_events_append [e] _ inv.deltaTo_le_events]
      exact hst
    · right
      exact hzero
  case idmap_range => exact inv.idmap_range
  case idmap_inj => exact inv.idmap_inj
  case seq_pos => exact inv.seq_pos

namespace CheckpointRecorder

theorem checkpointStep_stepId (r : CheckpointRecorder) (cp : Option String) :
    (r.checkpointStep cp).stepId = r.stepId + 1 := rfl

theorem checkpointStep_ssei (r : CheckpointRecorder) (cp : Option String) :
    (r.checkpointStep cp).stepStartEventIndex = r.trace.events.length := rfl

theorem checkpointStep_events (r : CheckpointRecorder) (cp : Option String) :
    (r.checkpointStep cp).trace.events = r.trace.events := rfl

theorem checkpointStep_state (r : CheckpointRecorder) (cp : Option String) :
    (r.checkpointStep cp).state = r.state := rfl

theorem checkpointStep_snapshots (r : CheckpointRecorder) (cp : Option String) :
    (r.checkpointStep cp).trace.snapshots =
      if (r.stepId + 1) % r.snapshotEvery = 0 then
        match deepCloneState r.state with
        | some c => r.trace.snapshots ++ [⟨r.stepId, c⟩]
        | none => r.trace.snapshots
      else r.trace.snapshots := rfl

theorem checkpointStep_steps_zero (r : CheckpointRecorder) (cp : Option String)
    (h0 : r.stepId = 0) (hs : r.trace.steps = [initStepMeta]) :
    (r.checkpointStep cp).trace.steps = [stepMetaOf r cp] := by
  show (match r.trace.steps with
    | [m] => if r.stepId = 0 ∧ m.checkpointId = some "__init__" then [stepMetaOf r cp]
             else r.trace.steps ++ [stepMetaOf r cp]
    | _ => r.trace.steps ++ [stepMetaOf r cp]) = [stepMetaOf r cp]
  rw [hs]
  exact if_pos ⟨h0, rfl⟩

theorem checkpointStep_steps_pos (r : CheckpointRecorder) (cp : Option String)
    (h0 : r.stepId ≠ 0) :
    (r.checkpointStep cp).trace.steps = r.trace.steps ++ [stepMetaOf r cp] := by
  show (match r.trace.steps with
    | [m] => if r.stepId = 0 ∧ m.checkpointId = some "__init__" then [stepMetaOf r cp]
             else r.trace.steps ++ [stepMetaOf r cp]
    | _ => r.trace.steps ++ [stepMetaOf r cp]) = r.trace.steps ++ [stepMetaOf r cp]
  cases hs : r.trace.steps with
  | nil => rfl
  | cons m tl =>
    cases tl with
    | nil =>
      show (if r.stepId = 0 ∧ m.checkpointId = some "__init__" then [r.stepMetaOf cp]
        else [m] ++ [r.stepMetaOf cp]) = [m] ++ [r.stepMetaOf cp]
      rw [if_neg]
      intro hh
      exact h0 hh.1
    | cons m' tl' => rfl

theorem checkpointStep_others (r : CheckpointRecorder) (cp : Option String) :
    (r.checkpointStep cp).snapshotEvery = r.snapshotEvery ∧
    (r.checkpointStep cp).objIdMap = r.objIdMap ∧
    (r.checkpointStep cp).objIdSeq = r.objIdSeq := ⟨rfl, rfl, rfl⟩

end CheckpointRecorder

theorem applyStepIdx_of_get {T : TraceLog} {i : Nat} {m : StepMeta}
    (h : T.steps.get? i = some m) (S : HeapState) :
    applyStepIdx T S i = applyEvents S (evSlice T.events m.deltaFrom m.deltaTo) i := by
  unfold applyStepIdx
  rw [h]

theorem snapshots_head_shape {l : List Snapshot} (h : l.head? = some ⟨0, emptyHeap⟩) :
    ∃ tl, l = ⟨0, emptyHeap⟩ :: tl := by
  cases l with
  | nil => simp at h
  | cons a tl =>
    simp only [List.head?_cons, Option.some.injEq] at h
    exact ⟨tl, by rw [h]⟩

theorem RecInv_checkpointStep {r : CheckpointRecorder} (inv : RecInv r) (cp : Option String) :
    RecInv (r.checkpointStep cp) := by
  have hev := CheckpointRecorder.checkpointStep_events r cp
  have hsid := CheckpointRecorder.checkpointStep_stepId r cp
  have hssei' := CheckpointRecorder.checkpointStep_ssei r cp
  have hstate := CheckpointRecorder.checkpointStep_state r cp
  have hsnaps := CheckpointRecorder.checkpointStep_snapshots r cp
  obtain ⟨stl, hstl⟩ := snapshots_head_shape inv.snap_head
  by_cases h0 : r.stepId = 0
  · -- first checkpoint: the placeholder is overwritten in place
    obtain ⟨hsteps, hssei⟩ := inv.at_zero h0
    have hsteps' := CheckpointRecorder.checkpointStep_steps_zero r cp h0 hsteps
    have hget0 : (r.checkpointStep cp).trace.steps.get? 0 = some (r.stepMetaOf cp) := by
      rw [hsteps']
      rfl
    have hgetS : ∀ i, (r.checkpointStep cp).trace.steps.get? (i + 1) = none := by
      intro i
      rw [hsteps']
      rfl
    have hlive0 : r.state =
        applyEvents emptyHeap (evSlice r.trace.events 0 r.trace.events.length) 0 := by
      have hlen1 : r.trace.steps.length = 1 := by simp [inv.steps_len, h0]
      have hrep : replayUpTo r.trace 1 = emptyHeap := by
        rw [replayUpTo_succ]
        have h00 : replayUpTo r.trace 0 = emptyHeap := rfl
        rw [h00, applyStepIdx_of_get (show r.trace.steps.get? 0 = some initStepMeta by
          rw [hsteps]; rfl)]
        show applyEvents emptyHeap (evSlice r.trace.events 0 0) 0 = emptyHeap
        rw [evSlice_self]
        rfl
      have := inv.live
      rw [hlen1, hrep, hssei, h0] at this
      exact this
    have hlive' : r.state = replayUpTo (r.checkpointStep cp).trace 1 := by
      rw [replayUpTo_succ]
      have h00 : replayUpTo (r.checkpointStep cp).trace 0 = emptyHeap := rfl
      rw [h00, applyStepIdx_of_get hget0, hev]
      show r.state =
        applyEvents emptyHeap (evSlice r.trace.events r.stepStartEventIndex
          r.trace.events.length) 0
      rw [hssei]
      exact hlive0
    refine ⟨?_, ?_, ?_, ?_, ?_, ?_, ?_, ?_, ?_, ?_, ?_, ?_, ?_, ?_, ?_, ?_, ?_⟩
    · exact inv.snapEvery_pos
    ·
      rw [hsteps', hsid, h0]
      simp
    ·
      intro i m h
      cases i with
      | zero =>
        rw [hget0] at h
        cases h
        show r.stepId = 0
        exact h0
      | succ i =>
        rw [hgetS] at h
        exact Option.noConfusion h
    ·
      intro hh
      rw [hsid] at hh
      omega
    ·
      intro m h
      rw [hget0] at h
      cases h
      show r.stepStartEventIndex = 0
      exact hssei
    ·
      intro i m m' h h'
      rw [hgetS] at h'
      exact Option.noConfusion h'
    ·
      intro m h
      rw [hsteps'] at h
      have hm : m = r.stepMetaOf cp := by
        have hx : ([r.stepMetaOf cp] : List StepMeta).getLast? = some (r.stepMetaOf cp) := rfl
        rw [hx] at h
        exact (Option.some.inj h).symm
      subst hm
      rw [hssei']
      rfl
    ·
      intro i m h
      cases i with
      | zero =>
        rw [hget0] at h
        cases h
        show r.stepStartEventIndex ≤ r.trace.events.length
        exact inv.ssei_le
      | succ i =>
        rw [hgetS] at h
        exact Option.noConfusion h
    ·
      rw [hssei', hev]
    ·
      rw [hev]
      exact inv.abw
    ·
      rw [hstate, hev]
      exact inv.objs_alloced
    ·
      rw [hstate, hev, hssei', hsteps', evSlice_self]
      exact hlive'
    ·
      rw [hsnaps]
      split
      · rcases hdc : deepCloneState r.state with _ | c
        · exact inv.snap_head
        · rw [hstl]
          rfl
      · exact inv.snap_head
    ·
      intro snap hmem
      rw [hsnaps] at hmem
      have hmem' : snap ∈ r.trace.snapshots ∨
          ∃ c, deepCloneState r.state = some c ∧ snap = ⟨r.stepId, c⟩ := by
        by_cases hc : (r.stepId + 1) % r.snapshotEvery = 0
        · rw [if_pos hc] at hmem
          rcases hdc : deepCloneState r.state with _ | c <;> rw [hdc] at hmem
          · exact Or.inl hmem
          · rcases List.mem_append.mp hmem with h1 | h2
            · exact Or.inl h1
            · exact Or.inr ⟨c, rfl, List.mem_singleton.mp h2⟩
        · rw [if_neg hc] at hmem
          exact Or.inl hmem
      rcases hmem' with hold | ⟨c, hdc, hnew⟩
      · rcases inv.snap_mem snap hold with ⟨hlt, _⟩ | hzero
        · omega
        · right
          exact hzero
      · left
        subst hnew
        refine ⟨by rw [hsid]; show r.stepId < r.stepId + 1; omega, ?_⟩
        show deepCloneState (replayUpTo (r.checkpointStep cp).trace (r.stepId + 1)) = some c
        have h1 : r.stepId + 1 = 1 := by omega
        rw [h1, ← hlive']
        exact hdc
    · exact inv.idmap_range
    · exact inv.idmap_inj
    · exact inv.seq_pos
  · -- later checkpoints append a fresh StepMeta
    have hn : r.trace.steps.length = r.stepId := by
      rw [inv.steps_len]
      omega
    have hsteps' := CheckpointRecorder.checkpointStep_steps_pos r cp h0
    have hgetn : (r.checkpointStep cp).trace.steps.get? r.stepId = some (r.stepMetaOf cp) := by
      rw [hsteps', ← hn]
      exact List.get?_concat_length _ _
    have hgetlt : ∀ i, i < r.stepId →
        (r.checkpointStep cp).trace.steps.get? i = r.trace.steps.get? i := by
      intro i hi
      rw [hsteps']
      exact List.get?_append (by omega)
    have hgetgt : ∀ i, r.stepId < i → (r.checkpointStep cp).trace.steps.get? i = none := by
      intro i hi
      apply List.get?_eq_none.mpr
      rw [hsteps']
      rw [List.length_append]
      simp only [List.length_cons, List.length_nil]
      omega
    have hT'fields : (r.checkpointStep cp).trace.steps =
        ({ r.trace with steps := r.trace.steps ++ [r.stepMetaOf cp] } : TraceLog).steps ∧
        (r.checkpointStep cp).trace.events =
        ({ r.trace with steps := r.trace.steps ++ [r.stepMetaOf cp] } : TraceLog).events := by
      exact ⟨hsteps', hev⟩
    have hrepeq : ∀ k, k ≤ r.stepId →
        replayUpTo (r.checkpointStep cp).trace k = replayUpTo r.trace k := by
      intro k hk
      rw [replayUpTo_of_fields hT'fields.1 hT'fields.2]
      exact replayUpTo_steps_append _ _ (by omega)
    have hlive' : r.state = replayUpTo (r.checkpointStep cp).trace (r.stepId + 1) := by
      rw [replayUpTo_succ, hrepeq _ (le_refl _), applyStepIdx_of_get hgetn, hev]
      show r.state = applyEvents (replayUpTo r.trace r.stepId)
        (evSlice r.trace.events r.stepStartEventIndex r.trace.events.length) r.stepId
      have := inv.live
      rw [hn] at this
      exact this
    refine ⟨?_, ?_, ?_, ?_, ?_, ?_, ?_, ?_, ?_, ?_, ?_, ?_, ?_, ?_, ?_, ?_, ?_⟩
    · exact inv.snapEvery_pos
    ·
      rw [hsteps', List.length_append, hn, hsid]
      simp only [List.length_cons, List.length_nil]
      omega
    ·
      intro i m h
      rcases Nat.lt_trichotomy i r.stepId with hi | hi | hi
      · rw [hgetlt i hi] at h
        exact inv.steps_idx i m h
      · subst hi
        rw [hgetn] at h
        cases h
        rfl
      · rw [hgetgt i hi] at h
        exact Option.noConfusion h
    ·
      intro hh
      rw [hsid] at hh
      omega
    ·
      intro m h
      rw [hgetlt 0 (by omega)] at h
      exact inv.chain_head m h
    ·
      intro i m m' h h'
      rcases Nat.lt_trichotomy (i + 1) r.stepId with hi | hi | hi
      · rw [hgetlt i (by omega)] at h
        rw [hgetlt (i + 1) hi] at h'
        exact inv.chain_adj i m m' h h'
      · rw [hgetlt i (by omega)] at h
        rw [hi, hgetn] at h'
        cases h'
        show (r.stepMetaOf cp).deltaFrom = m.deltaTo
        have hlast : r.trace.steps.getLast? = some m := by
          rw [List.getLast?_eq_get?, hn]
          have : r.stepId - 1 = i := by omega
          rw [this]
          exact h
        have := inv.chain_last m hlast
        show r.stepStartEventIndex = m.deltaTo
        omega
      · rw [hgetgt (i + 1) hi] at h'
        exact Option.noConfusion h'
    ·
      intro m h
      rw [hsteps', List.getLast?_concat] at h
      cases h
      rw [hssei']
      rfl
    ·
      intro i m h
      rcases Nat.lt_trichotomy i r.stepId with hi | hi | hi
      · rw [hgetlt i hi] at h
        exact inv.from_le_to i m h
      · subst hi
        rw [hgetn] at h
        cases h
        show r.stepStartEventIndex ≤ r.trace.events.length
        exact inv.ssei_le
      · rw [hgetgt i hi] at h
        exact Option.noConfusion h
    ·
      rw [hssei', hev]
    ·
      rw [hev]
      exact inv.abw
    ·
      rw [hstate, hev]
      exact inv.objs_alloced
    ·
      rw [hstate, hev, hssei']
      have hlen' : (r.checkpointStep cp).trace.steps.length = r.stepId + 1 := by
        rw [hsteps', List.length_append, hn]
        rfl
      rw [hlen', evSlice_self]
      show r.state = replayUpTo (r.checkpointStep cp).trace (r.stepId + 1)
      exact hlive'
    ·
      rw [hsnaps]
      split
      · rcases hdc : deepCloneState r.state with _ | c
        · exact inv.snap_head
        · rw [hstl]
          rfl
      · exact inv.snap_head
    ·
      intro snap hmem
      rw [hsnaps] at hmem
      have hmem' : snap ∈ r.trace.snapshots ∨
          ∃ c, deepCloneState r.state = some c ∧ snap = ⟨r.stepId, c⟩ := by
        by_cases hc : (r.stepId + 1) % r.snapshotEvery = 0
        · rw [if_pos hc] at hmem
          rcases hdc : deepCloneState r.state with _ | c <;> rw [hdc] at hmem
          · exact Or.inl hmem
          · rcases List.mem_append.mp hmem with h1 | h2
            · exact Or.inl h1
            · exact Or.inr ⟨c, rfl, List.mem_singleton.mp h2⟩
        · rw [if_neg hc] at hmem
          exact Or.inl hmem
      rcases hmem' with hold | ⟨c, hdc, hnew⟩
      · rcases inv.snap_mem snap hold with ⟨hlt, hst⟩ | hzero
        · left
          refine ⟨by rw [hsid]; omega, ?_⟩
          rw [hrepeq (snap.at_ + 1) (by omega)]
          exact hst
        · right
          exact hzero
      · left
        subst hnew
        refine ⟨by rw [hsid]; show r.stepId < r.stepId + 1; omega, ?_⟩
        show deepCloneState (replayUpTo (r.checkpointStep cp).trace (r.stepId + 1)) = some c
        rw [← hlive']
        exact hdc
    · exact inv.idmap_range
    · exact inv.idmap_inj
    · exact inv.seq_pos

/-! Identity-map (`WeakMap`) lemmas. -/

namespace CheckpointRecorder

theorem idGet_idSet (m : List (Nat × String)) (k k' : Nat) (v : String) :
    idGet (idSet m k v) k' = if k = k' then some v else idGet m k' := by
  induction m with
  | nil =>
    by_cases h : k = k' <;> simp [idSet, idGet, h]
  | cons hd tl ih =>
    obtain ⟨k₀, w⟩ := hd
    by_cases h0 : k₀ = k
    · subst h0
      by_cases h : k₀ = k' <;> simp [idSet, idGet, h]
    · by_cases h : k = k'
      · subst h
        simp [idSet, idGet, h0, ih]
      · simp only [idSet, if_neg h0, idGet]
        by_cases h1 : k₀ = k' <;> simp [h1, ih, h]

theorem idGet_mem {m : List (Nat × String)} {k : Nat} {v : String}
    (h : idGet m k = some v) : (k, v) ∈ m := by
  induction m with
  | nil => simp [idGet] at h
  | cons hd tl ih =>
    obtain ⟨k₀, w⟩ := hd
    by_cases h0 : k₀ = k
    · subst h0
      rw [show idGet ((k₀, w) :: tl) k₀ = some w by simp [idGet]] at h
      cases h
      exact List.mem_cons_self _ _
    · rw [show idGet ((k₀, w) :: tl) k = idGet tl k by simp [idGet, h0]] at h
      exact List.mem_cons_of_mem _ (ih h)

theorem idSet_of_none {m : List (Nat × String)} {k : Nat} (v : String)
    (h : idGet m k = none) : idSet m k v = m ++ [(k, v)] := by
  induction m with
  | nil => rfl
  | cons hd tl ih =>
    obtain ⟨k₀, w⟩ := hd
    by_cases h0 : k₀ = k
    · subst h0
      rw [show idGet ((k₀, w) :: tl) k₀ = some w by simp [idGet]] at h
      exact Option.noConfusion h
    · rw [show idGet ((k₀, w) :: tl) k = idGet tl k by simp [idGet, h0]] at h
      simp [idSet, h0, ih h]

end CheckpointRecorder

theorem RecInv_alloc {r : CheckpointRecorder} (inv : RecInv r) (obj : String) (k : ObjKind)
    (cn : Option String) : RecInv (r.alloc obj k cn) := by
  rw [CheckpointRecorder.alloc_eq]
  exact RecInv_push inv _ (by intro o h; simp [evTargetW] at h)

theorem RecInv_write {r : CheckpointRecorder} (inv : RecInv r) (obj key : String)
    (val : ValueRef) (cp : Option String) : RecInv (r.write obj key val cp) := by
  rcases hg : recGet r.state.objects obj with _ | o
  · rw [CheckpointRecorder.write_eq_none r obj key val cp hg]
    exact inv
  · rw [CheckpointRecorder.write_eq_some r obj key val cp o hg]
    apply RecInv_push inv
    intro o' h
    have : o' = obj := by
      simp only [evTargetW, Option.some.injEq] at h
      exact h.symm
    subst this
    rw [hg]
    rfl

theorem RecInv_del {r : CheckpointRecorder} (inv : RecInv r) (obj key : String)
    (cp : Option String) : RecInv (r.del obj key cp) := by
  rcases hg : recGet r.state.objects obj with _ | o
  · rw [CheckpointRecorder.del_eq_none r obj key cp hg]
    exact inv
  · rw [CheckpointRecorder.del_eq_some r obj key cp o hg]
    apply RecInv_push inv
    intro o' h
    have : o' = obj := by
      simp only [evTargetW, Option.some.injEq] at h
      exact h.symm
    subst this
    rw [hg]
    rfl

theorem RecInv_rootSet {r : CheckpointRecorder} (inv : RecInv r) (name : String)
    (val : ValueRef) (cp : Option String) : RecInv (r.rootSet name val cp) := by
  rw [CheckpointRecorder.rootSet_eq]
  exact RecInv_push inv _ (by intro o h; simp [evTargetW] at h)

theorem RecInv_rootDel {r : CheckpointRecorder} (inv : RecInv r) (name : String)
    (cp : Option String) : RecInv (r.rootDel name cp) := by
  rw [CheckpointRecorder.rootDel_eq]
  exact RecInv_push inv _ (by intro o h; simp [evTargetW] at h)

theorem RecInv_ensureObjId {r : CheckpointRecorder} (inv : RecInv r) (o : Nat)
    (kind : ObjKind) (cn : Option String) : RecInv (r.ensureObjId o kind cn).1 := by
  unfold CheckpointRecorder.ensureObjId
  rcases hg : CheckpointRecorder.idGet r.objIdMap o with _ | id
  · dsimp only
    apply RecInv_alloc
    refine ⟨inv.snapEvery_pos, inv.steps_len, inv.steps_idx, inv.at_zero, inv.chain_head,
      inv.chain_adj, inv.chain_last, inv.from_le_to, inv.ssei_le, inv.abw, inv.objs_alloced,
      inv.live, inv.snap_head, inv.snap_mem, ?_, ?_, ?_⟩
    · intro p hp
      rw [CheckpointRecorder.idSet_of_none _ hg] at hp
      rcases List.mem_append.mp hp with hold | hnew
      · obtain ⟨mp, h1, h2, h3⟩ := inv.idmap_range p hold
        exact ⟨mp, h1, by show mp < r.objIdSeq + 1; omega, h3⟩
      · have hpe : p = (o, mkObjId r.objIdSeq) := List.mem_singleton.mp hnew
        subst hpe
        exact ⟨r.objIdSeq, inv.seq_pos, by show r.objIdSeq < r.objIdSeq + 1; omega, rfl⟩
    · intro p hp q hq hpq
      rw [CheckpointRecorder.idSet_of_none _ hg] at hp hq
      rcases List.mem_append.mp hp with hpo | hpn <;>
        rcases List.mem_append.mp hq with hqo | hqn
      · exact inv.idmap_inj p hpo q hqo hpq
      · have hqe : q = (o, mkObjId r.objIdSeq) := List.mem_singleton.mp hqn
        subst hqe
        obtain ⟨mp, _, h2, h3⟩ := inv.idmap_range p hpo
        rw [h3] at hpq
        have := mkObjId_inj hpq
        omega
      · have hpe : p = (o, mkObjId r.objIdSeq) := List.mem_singleton.mp hpn
        subst hpe
        obtain ⟨mq, _, h2, h3⟩ := inv.idmap_range q hqo
        rw [h3] at hpq
        have := mkObjId_inj hpq
        omega
      · have hpe : p = (o, mkObjId r.objIdSeq) := List.mem_singleton.mp hpn
        have hqe : q = (o, mkObjId r.objIdSeq) := List.mem_singleton.mp hqn
        subst hpe
        subst hqe
        rfl
    · show 1 ≤ r.objIdSeq + 1
      omega
  · dsimp only
    exact inv

theorem RecInv_callEnter {r : CheckpointRecorder} (inv : RecInv r) (fn : String)
    (cp : Option String) : RecInv (r.callEnter fn cp) :=
  ⟨inv.snapEvery_pos, inv.steps_len, inv.steps_idx, inv.at_zero, inv.chain_head, inv.chain_adj,
    inv.chain_last, inv.from_le_to, inv.ssei_le, inv.abw, inv.objs_alloced, inv.live,
    inv.snap_head, inv.snap_mem, inv.idmap_range, inv.idmap_inj, inv.seq_pos⟩

theorem RecInv_callExit {r : CheckpointRecorder} (inv : RecInv r) (fn : String)
    (cp : Option String) : RecInv (r.callExit fn cp) :=
  ⟨inv.snapEvery_pos, inv.steps_len, inv.steps_idx, inv.at_zero, inv.chain_head, inv.chain_adj,
    inv.chain_last, inv.from_le_to, inv.ssei_le, inv.abw, inv.objs_alloced, inv.live,
    inv.snap_head, inv.snap_mem, inv.idmap_range, inv.idmap_inj, inv.seq_pos⟩

theorem RecInv_init (n : Nat) : RecInv (CheckpointRecorder.init n) := by
  refine ⟨le_max_left 1 n, by simp [CheckpointRecorder.init], ?_, fun _ => ⟨rfl, rfl⟩, ?_, ?_,
    ?_, ?_, le_refl 0, ?_, ?_, rfl, rfl, ?_, ?_, ?_, le_refl 1⟩
  · intro i m h
    cases i with
    | zero =>
      cases h
      rfl
    | succ i =>
      exact Option.noConfusion h
  · intro m h
    cases h
    rfl
  · intro i m m' h h'
    cases i with
    | zero => exact Option.noConfusion h'
    | succ i => exact Option.noConfusion h
  · intro m h
    cases h
    rfl
  · intro i m h
    cases i with
    | zero =>
      cases h
      exact le_refl 0
    | succ i =>
      exact Option.noConfusion h
  · intro i e h
    cases i <;> exact Option.noConfusion h
  · intro obj h
    simp [CheckpointRecorder.init, emptyHeap, recGet] at h
  · intro snap hmem
    have : snap = ⟨0, emptyHeap⟩ := List.mem_singleton.mp hmem
    subst this
    right
    exact ⟨rfl, rfl⟩
  · intro p hp
    simp [CheckpointRecorder.init] at hp
  · intro p hp
    simp [CheckpointRecorder.init] at hp

theorem RecInv_runOp {r : CheckpointRecorder} (inv : RecInv r) (op : RecOp) :
    RecInv (runOp r op) := by
  cases op with
  | ensureObjId o kind cn => exact RecInv_ensureObjId inv o kind cn
  | alloc obj kind cn => exact RecInv_alloc inv obj kind cn
  | write obj key val cp => exact RecInv_write inv obj key val cp
  | del obj key cp => exact RecInv_del inv obj key cp
  | rootSet name val cp => exact RecInv_rootSet inv name val cp
  | rootDel name cp => exact RecInv_rootDel inv name cp
  | checkpointStep cp => exact RecInv_checkpointStep inv cp
  | callEnter fn cp => exact RecInv_callEnter inv fn cp
  | callExit fn cp => exact RecInv_callExit inv fn cp

theorem RecInv_runOps {r : CheckpointRecorder} (inv : RecInv r) (ops : List RecOp) :
    RecInv (runOps r ops) := by
  induction ops generalizing r with
  | nil => exact inv
  | cons op rest ih => exact ih (RecInv_runOp inv op)

theorem RecInv_runRecorder (n : Nat) (ops : List RecOp) : RecInv (runRecorder n ops) :=
  RecInv_runOps (RecInv_init n) ops

/-! `findSnapshot` selects an eligible snapshot with maximal `at`. -/

theorem findSnapshot_fold_spec (s : Nat) (l : List Snapshot) :
    ∀ b : Snapshot, b.at_ ≤ s →
      (l.foldl (fun best sn => if sn.at_ ≤ s ∧ best.at_ ≤ sn.at_ then sn else best) b) ∈ b :: l ∧
      (l.foldl (fun best sn => if sn.at_ ≤ s ∧ best.at_ ≤ sn.at_ then sn else best) b).at_ ≤ s ∧
      b.at_ ≤ (l.foldl (fun best sn => if sn.at_ ≤ s ∧ best.at_ ≤ sn.at_ then sn else best) b).at_ ∧
      ∀ x ∈ l, x.at_ ≤ s →
        x.at_ ≤ (l.foldl (fun best sn => if sn.at_ ≤ s ∧ best.at_ ≤ sn.at_ then sn else best) b).at_ := by
  induction l with
  | nil =>
    intro b hb
    exact ⟨List.mem_cons_self _ _, hb, le_refl _, fun x hx => absurd hx (List.not_mem_nil x)⟩
  | cons y l ih =>
    intro b hb
    by_cases hy : y.at_ ≤ s ∧ b.at_ ≤ y.at_
    · have hstep : (if y.at_ ≤ s ∧ b.at_ ≤ y.at_ then y else b) = y := if_pos hy
      obtain ⟨hmem, hle, hmono, hmax⟩ := ih y hy.1
      refine ⟨?_, ?_, ?_, ?_⟩
      · show l.foldl _ (if y.at_ ≤ s ∧ b.at_ ≤ y.at_ then y else b) ∈ b :: y :: l
        rw [hstep]
        exact List.mem_cons_of_mem _ hmem
      · show (l.foldl _ (if y.at_ ≤ s ∧ b.at_ ≤ y.at_ then y else b)).at_ ≤ s
        rw [hstep]
        exact hle
      · show b.at_ ≤ (l.foldl _ (if y.at_ ≤ s ∧ b.at_ ≤ y.at_ then y else b)).at_
        rw [hstep]
        exact le_trans hy.2 hmono
      · intro x hx hxs
        show x.at_ ≤ (l.foldl _ (if y.at_ ≤ s ∧ b.at_ ≤ y.at_ then y else b)).at_
        rw [hstep]
        rcases List.mem_cons.mp hx with h1 | h2
        · subst h1
          exact hmono
        · exact hmax x h2 hxs
    · have hstep : (if y.at_ ≤ s ∧ b.at_ ≤ y.at_ then y else b) = b := if_neg hy
      obtain ⟨hmem, hle, hmono, hmax⟩ := ih b hb
      refine ⟨?_, ?_, ?_, ?_⟩
      · show l.foldl _ (if y.at_ ≤ s ∧ b.at_ ≤ y.at_ then y else b) ∈ b :: y :: l
        rw [hstep]
        rcases List.mem_cons.mp hmem with h1 | h2
        · rw [h1]
          exact List.mem_cons_self _ _
        · exact List.mem_cons_of_mem _ (List.mem_cons_of_mem _ h2)
      · show (l.foldl _ (if y.at_ ≤ s ∧ b.at_ ≤ y.at_ then y else b)).at_ ≤ s
        rw [hstep]
        exact hle
      · show b.at_ ≤ (l.foldl _ (if y.at_ ≤ s ∧ b.at_ ≤ y.at_ then y else b)).at_
        rw [hstep]
        exact hmono
      · intro x hx hxs
        show x.at_ ≤ (l.foldl _ (if y.at_ ≤ s ∧ b.at_ ≤ y.at_ then y else b)).at_
        rw [hstep]
        rcases List.mem_cons.mp hx with h1 | h2
        · subst h1
          by_cases hby : b.at_ ≤ x.at_
          · exact absurd ⟨hxs, hby⟩ hy
          · omega
        · exact hmax x h2 hxs

theorem findSnapshot_spec {T : TraceLog} {s : Nat} {s0 : Snapshot} {rest : List Snapshot}
    (h : T.snapshots = s0 :: rest) (h0 : s0.at_ ≤ s) :
    ∃ snap, findSnapshot T s = some snap ∧ snap ∈ T.snapshots ∧ snap.at_ ≤ s ∧
      ∀ x ∈ T.snapshots, x.at_ ≤ s → x.at_ ≤ snap.at_ := by
  have hdef : findSnapshot T s = some ((s0 :: rest).foldl
      (fun best sn => if sn.at_ ≤ s ∧ best.at_ ≤ sn.at_ then sn else best) s0) := by
    unfold findSnapshot
    rw [h]
  obtain ⟨hmem, hle, _, hmax⟩ := findSnapshot_fold_spec s (s0 :: rest) s0 h0
  refine ⟨_, hdef, ?_, ?_, ?_⟩
  · rw [h]
    rcases List.mem_cons.mp hmem with h1 | h2
    · rw [h1]
      exact List.mem_cons_self _ _
    · exact h2
  · exact hle
  · intro x hx hxs
    rw [h] at hx
    exact hmax x hx hxs

theorem getStateAt_of_findSnapshot {T : TraceLog} {s : Nat} {snap : Snapshot}
    (h : findSnapshot T s = some snap) :
    getStateAt T s = some ((List.range' snap.at_ (s + 1 - snap.at_)).foldl
      (fun st i => applyStepIdx T st i) (cloneState snap.state)) := by
  unfold getStateAt getStateAtM
  rw [h]

/-! Deriving the guard discipline of recorder traces: every `write`/
`delete` replayed inside a step slice targets an object whose `alloc`
was either replayed in an earlier slice or appears earlier in the same
slice. -/

theorem evSlice_get? (events : List DeltaEvent) (f t i : Nat) (hi : i < t - f) :
    (evSlice events f t).get? i = events.get? (f + i) := by
  unfold evSlice
  rw [List.get?_take hi, List.get?_drop]

theorem mem_evSlice {events : List DeltaEvent} {f t j : Nat} {e : DeltaEvent}
    (hf : f ≤ j) (ht : j < t) (h : events.get? j = some e) : e ∈ evSlice events f t := by
  have hg : (evSlice events f t).get? (j - f) = some e := by
    rw [evSlice_get? events f t (j - f) (by omega)]
    rw [show f + (j - f) = j by omega]
    exact h
  exact List.get?_mem hg

theorem guardsOk_of_local {S : HeapState} {E : List DeltaEvent} {sid : Nat}
    (h : ∀ i e, E.get? i = some e → ∀ obj, evTargetW e = some obj →
      (recGet S.objects obj).isSome = true ∨
        ∃ j, j < i ∧ ∃ k cn, E.get? j = some (.alloc obj k cn)) :
    guardsOk S E sid := by
  induction E generalizing S with
  | nil => trivial
  | cons e rest ih =>
    constructor
    · intro obj ht
      rcases h 0 e rfl obj ht with hp | ⟨j, hj, _⟩
      · exact hp
      · omega
    · apply ih
      intro i e' he' obj ht
      rcases h (i + 1) e' he' obj ht with hp | ⟨j, hj, k, cn, hje⟩
      · left
        rw [present_applyEvent]
        exact Bool.or_eq_true_iff.mpr (Or.inl hp)
      · cases j with
        | zero =>
          left
          cases hje
          rw [present_applyEvent]
          refine Bool.or_eq_true_iff.mpr (Or.inr ?_)
          simp [isAllocOf]
        | succ j' =>
          right
          exact ⟨j', by omega, k, cn, hje⟩

theorem present_foldSteps_mono {T : TraceLog} {S : HeapState} {obj : String}
    (hp : (recGet S.objects obj).isSome = true) (l : List Nat) :
    (recGet ((l.foldl (fun st i => applyStepIdx T st i) S)).objects obj).isSome = true := by
  induction l generalizing S with
  | nil => exact hp
  | cons a rest ih =>
    apply ih
    show (recGet (applyStepIdx T S a).objects obj).isSome = true
    rcases hq : T.steps.get? a with _ | m
    · unfold applyStepIdx
      rw [hq]
      exact hp
    · rw [applyStepIdx_of_get hq, present_applyEvents]
      exact Bool.or_eq_true_iff.mpr (Or.inl hp)

/-- Every event position strictly below a step's `deltaFrom` is covered
by an earlier step's slice (a consequence of the contiguity chain). -/
theorem slice_cover {r : CheckpointRecorder} (inv : RecInv r) :
    ∀ a m, r.trace.steps.get? a = some m → ∀ j, j < m.deltaFrom →
      ∃ i, i < a ∧ ∃ mi, r.trace.steps.get? i = some mi ∧
        mi.deltaFrom ≤ j ∧ j < mi.deltaTo := by
  intro a
  induction a with
  | zero =>
    intro m h j hj
    rw [inv.chain_head m h] at hj
    omega
  | succ a ih =>
    intro m h j hj
    have ha : a < r.trace.steps.length := by
      have := (List.get?_eq_some.mp h).1
      omega
    obtain ⟨ma, hma⟩ : ∃ ma, r.trace.steps.get? a = some ma := ⟨_, List.get?_eq_get ha⟩
    rw [inv.chain_adj a ma m hma h] at hj
    by_cases hge : ma.deltaFrom ≤ j
    · exact ⟨a, by omega, ma, hma, hge, hj⟩
    · obtain ⟨i, hi, mi, hmi⟩ := ih ma hma j (by omega)
      exact ⟨i, by omega, mi, hmi⟩

/-- An object with an `alloc` event strictly below step `a`'s slice is
present after replaying steps `0..a-1`. -/
theorem present_replayUpTo {r : CheckpointRecorder} (inv : RecInv r) (a : Nat) (m : StepMeta)
    (hm : r.trace.steps.get? a = some m) (obj : String) (j : Nat) (k : ObjKind)
    (cn : Option String) (hj : j < m.deltaFrom)
    (hje : r.trace.events.get? j = some (.alloc obj k cn)) :
    (recGet (replayUpTo r.trace a).objects obj).isSome = true := by
  obtain ⟨i, hia, mi, hmi, hif, hit⟩ := slice_cover inv a m hm j hj
  have hsplit : replayUpTo r.trace a =
      (List.range' (i + 1) (a - (i + 1))).foldl (fun st x => applyStepIdx r.trace st x)
        (replayUpTo r.trace (i + 1)) := by
    unfold replayUpTo
    rw [List.range_eq_range']
    have hr : List.range' 0 (i + 1) ++ List.range' (i + 1) (a - (i + 1)) =
        List.range' 0 a := by
      have h2 := List.range'_append 0 (i + 1) (a - (i + 1)) 1
      simp only [Nat.one_mul, Nat.zero_add] at h2
      rw [show a - (i + 1) + (i + 1) = a by omega] at h2
      exact h2
    rw [← hr, List.foldl_append, List.range_eq_range']
  rw [hsplit]
  apply present_foldSteps_mono
  rw [replayUpTo_succ, applyStepIdx_of_get hmi, present_applyEvents]
  refine Bool.or_eq_true_iff.mpr (Or.inr ?_)
  apply List.any_eq_true.mpr
  refine ⟨.alloc obj k cn, mem_evSlice hif hit hje, ?_⟩
  simp [isAllocOf]

/-- Replaying any recorded step slice onto the replay of all earlier
steps only ever applies guarded mutations to present objects. -/
theorem run_guardsOk {r : CheckpointRecorder} (inv : RecInv r) (a : Nat) (m : StepMeta)
    (hm : r.trace.steps.get? a = some m) :
    guardsOk (replayUpTo r.trace a) (evSlice r.trace.events m.deltaFrom m.deltaTo) a := by
  apply guardsOk_of_local
  intro i e he obj ht
  have hito : i < m.deltaTo - m.deltaFrom := by
    by_contra hcon
    rw [List.get?_eq_none.mpr] at he
    · exact Option.noConfusion he
    · unfold evSlice
      have h1 : (r.trace.events.drop m.deltaFrom).length = r.trace.events.length - m.deltaFrom := by
        simp
      have h2 : ((r.trace.events.drop m.deltaFrom).take (m.deltaTo - m.deltaFrom)).length ≤
          m.deltaTo - m.deltaFrom := by
        simp
      omega
  rw [evSlice_get? _ _ _ _ hito] at he
  obtain ⟨j, hj, k, cn, hje⟩ := inv.abw (m.deltaFrom + i) e he obj ht
  by_cases hjf : j < m.deltaFrom
  · left
    exact present_replayUpTo inv a m hm obj j k cn hjf hje
  · right
    refine ⟨j - m.deltaFrom, by omega, k, cn, ?_⟩
    rw [evSlice_get? _ _ _ _ (by omega)]
    rw [show m.deltaFrom + (j - m.deltaFrom) = j by omega]
    exact hje

/-- Deep equality lifted to the optional results of the replay API. -/
def HeapState.OptEquiv : Option HeapState → Option HeapState → Prop
  | none, none => True
  | some a, some b => HeapState.Equiv a b
  | _, _ => False

theorem replayUpTo_range' (T : TraceLog) (n : Nat) :
    replayUpTo T n = (List.range' 0 n).foldl (fun st i => applyStepIdx T st i) emptyHeap := by
  unfold replayUpTo
  rw [List.range_eq_range']

theorem range'_split_zero (a s : Nat) (h : a ≤ s) :
    List.range' 0 (a + 1) ++ List.range' (a + 1) (s - a) = List.range' 0 (s + 1) := by
  have h2 := List.range'_append 0 (a + 1) (s - a) 1
  simp only [Nat.one_mul, Nat.zero_add] at h2
  rw [show s - a + (a + 1) = s + 1 by omega] at h2
  exact h2

/-- Core snapshot-transparency fact: on any reachable recorder state
whose stored snapshots are exactly the replays of their steps (`hsnap` —
which holds whenever the JSON round-trip was lossless on the run's
values, and fails in general: see the C3 counterexample), replaying from
the snapshot chosen by `getStateAt` is deep-equal to replaying every
step forward from the step-0 snapshot. -/
theorem getStateAt_equiv_replayFromStep0 {r : CheckpointRecorder} (inv : RecInv r)
    (hsnap : ∀ snap ∈ r.trace.snapshots,
      (snap.at_ < r.stepId ∧ snap.state = replayUpTo r.trace (snap.at_ + 1)) ∨
      (snap.at_ = 0 ∧ snap.state = emptyHeap)) (s : Nat) :
    HeapState.OptEquiv (getStateAt r.trace s) (replayFromStep0 r.trace s) := by
  obtain ⟨stl, hstl⟩ := snapshots_head_shape inv.snap_head
  obtain ⟨snap, hfs, hmem, hsle, hmax⟩ :=
    @findSnapshot_spec r.trace s ⟨0, emptyHeap⟩ stl hstl (Nat.zero_le s)
  rw [getStateAt_of_findSnapshot hfs]
  have hrep0 : replayFromStep0 r.trace s = some (replayUpTo r.trace (s + 1)) := by
    unfold replayFromStep0
    rw [inv.snap_head]
    show some ((List.range' 0 (s + 1)).foldl (fun st i => applyStepIdx r.trace st i)
      (cloneState emptyHeap)) = _
    rw [replayUpTo_range']
    rfl
  rw [hrep0]
  show HeapState.Equiv
    ((List.range' snap.at_ (s + 1 - snap.at_)).foldl (fun st i => applyStepIdx r.trace st i)
      (cloneState snap.state))
    (replayUpTo r.trace (s + 1))
  rcases hsnap snap hmem with ⟨hlt, hst⟩ | ⟨h0, hemp⟩
  · have halen : snap.at_ < r.trace.steps.length := by
      rw [inv.steps_len]
      omega
    obtain ⟨ma, hma⟩ : ∃ ma, r.trace.steps.get? snap.at_ = some ma :=
      ⟨_, List.get?_eq_get halen⟩
    have hrange : List.range' snap.at_ (s + 1 - snap.at_) =
        snap.at_ :: List.range' (snap.at_ + 1) (s - snap.at_) := by
      rw [show s + 1 - snap.at_ = (s - snap.at_) + 1 by omega]
      exact List.range'_succ _ _ _
    rw [hrange]
    show HeapState.Equiv
      ((List.range' (snap.at_ + 1) (s - snap.at_)).foldl (fun st i => applyStepIdx r.trace st i)
        (applyStepIdx r.trace (cloneState snap.state) snap.at_))
      (replayUpTo r.trace (s + 1))
    have hre : HeapState.Equiv
        (applyStepIdx r.trace (cloneState snap.state) snap.at_) snap.state := by
      show HeapState.Equiv (applyStepIdx r.trace snap.state snap.at_) snap.state
      rw [hst, replayUpTo_succ, applyStepIdx_of_get hma, applyStepIdx_of_get hma]
      exact applyEvents_reapply (run_guardsOk inv snap.at_ ma hma)
    have hcong := foldSteps_congr hre r.trace (List.range' (snap.at_ + 1) (s - snap.at_))
    have heq2 : (List.range' (snap.at_ + 1) (s - snap.at_)).foldl
        (fun st i => applyStepIdx r.trace st i) snap.state = replayUpTo r.trace (s + 1) := by
      rw [hst, replayUpTo_range', replayUpTo_range',
        ← range'_split_zero snap.at_ s hsle, List.foldl_append]
    rw [heq2] at hcong
    exact hcong
  · rw [hemp, h0]
    apply HeapState.Equiv.of_eq
    show (List.range' 0 (s + 1 - 0)).foldl (fun st i => applyStepIdx r.trace st i) emptyHeap = _
    rw [Nat.sub_zero, replayUpTo_range']

/-! Concatenation of the recorded step slices. -/

theorem evSlice_trans (events : List DeltaEvent) (a b c : Nat) (hab : a ≤ b) (hbc : b ≤ c) :
    evSlice events a b ++ evSlice events b c = evSlice events a c := by
  unfold evSlice
  have h1 : (events.drop a).drop (b - a) = events.drop b := by
    rw [List.drop_drop]
    congr 1
    omega
  rw [show c - a = (b - a) + (c - b) by omega, List.take_add, h1]

/-- The contiguity chain of recorded step metas, starting at event
cursor `c`. -/
def sliceChain (events : List DeltaEvent) : Nat → List StepMeta → Prop
  | _, [] => True
  | c, m :: tl =>
    m.deltaFrom = c ∧ m.deltaFrom ≤ m.deltaTo ∧ m.deltaTo ≤ events.length ∧
      sliceChain events m.deltaTo tl

/-- The event cursor after the last step meta. -/
def lastToFrom (c : Nat) : List StepMeta → Nat
  | [] => c
  | m :: tl => lastToFrom m.deltaTo tl

theorem sliceChain_le (events : List DeltaEvent) :
    ∀ (steps : List StepMeta) (c : Nat), sliceChain events c steps →
      c ≤ lastToFrom c steps ∧ lastToFrom c steps ≤ events.length ∨ steps = [] := by
  intro steps
  induction steps with
  | nil =>
    intro c _
    right
    rfl
  | cons m tl ih =>
    intro c h
    obtain ⟨h1, h2, h3, h4⟩ := h
    left
    rcases ih m.deltaTo h4 with ⟨ha, hb⟩ | hnil
    · constructor
      · show c ≤ lastToFrom m.deltaTo tl
        omega
      · exact hb
    · subst hnil
      constructor
      · show c ≤ m.deltaTo
        omega
      · exact h3

theorem sliceChain_flatten (events : List DeltaEvent) :
    ∀ (steps : List StepMeta) (c : Nat), sliceChain events c steps →
      (steps.map (fun m => evSlice events m.deltaFrom m.deltaTo)).flatten =
        evSlice events c (lastToFrom c steps) := by
  intro steps
  induction steps with
  | nil =>
    intro c _
    show ([] : List DeltaEvent) = evSlice events c c
    rw [evSlice_self]
  | cons m tl ih =>
    intro c h
    obtain ⟨h1, h2, h3, h4⟩ := h
    show evSlice events m.deltaFrom m.deltaTo ++
        (tl.map (fun m => evSlice events m.deltaFrom m.deltaTo)).flatten =
      evSlice events c (lastToFrom m.deltaTo tl)
    rw [ih m.deltaTo h4, h1]
    apply evSlice_trans
    · omega
    · rcases sliceChain_le events tl m.deltaTo h4 with ⟨ha, _⟩ | hnil
      · exact ha
      · subst hnil
        exact le_refl _

theorem sliceChain_of_indexed (events : List DeltaEvent) :
    ∀ (steps : List StepMeta) (c : Nat),
      (∀ m, steps.head? = some m → m.deltaFrom = c) →
      (∀ i m m', steps.get? i = some m → steps.get? (i + 1) = some m' →
        m'.deltaFrom = m.deltaTo) →
      (∀ i m, steps.get? i = some m → m.deltaFrom ≤ m.deltaTo) →
      (∀ i m, steps.get? i = some m → m.deltaTo ≤ events.length) →
      sliceChain events c steps := by
  intro steps
  induction steps with
  | nil =>
    intro c _ _ _ _
    trivial
  | cons m tl ih =>
    intro c hhead hadj hfl hbd
    refine ⟨hhead m rfl, hfl 0 m rfl, hbd 0 m rfl, ?_⟩
    apply ih
    · intro m' hm'
      refine hadj 0 m m' rfl ?_
      show tl.get? 0 = some m'
      rw [List.get?_zero]
      exact hm'
    · intro i mi mi' hi hi'
      exact hadj (i + 1) mi mi' hi hi'
    · intro i mi hi
      exact hfl (i + 1) mi hi
    · intro i mi hi
      exact hbd (i + 1) mi hi

theorem lastToFrom_getLastD :
    ∀ (steps : List StepMeta) (c : Nat) (d : StepMeta), steps ≠ [] →
      lastToFrom c steps = (steps.getLastD d).deltaTo := by
  intro steps
  induction steps with
  | nil =>
    intro c d h
    exact absurd rfl h
  | cons m tl ih =>
    intro c d _
    cases tl with
    | nil => rfl
    | cons m' tl' =>
      show lastToFrom m.deltaTo (m' :: tl') = ((m' :: tl').getLastD d).deltaTo
      exact ih m.deltaTo d (List.cons_ne_nil _ _)

/-- On any reachable recorder state, the step slices concatenate (in step
order, each exactly once) to the prefix of the event log below the
current step boundary `stepStartEventIndex`; events recorded after the
last closed step are covered by no slice. -/
theorem steps_flatten_run {r : CheckpointRecorder} (inv : RecInv r) :
    (r.trace.steps.map (fun m => evSlice r.trace.events m.deltaFrom m.deltaTo)).flatten =
      r.trace.events.take ((r.trace.steps.getLastD initStepMeta).deltaTo) ∧
    (r.trace.steps.getLastD initStepMeta).deltaTo ≤ r.trace.events.length := by
  have hne : r.trace.steps ≠ [] := by
    intro hnil
    have := inv.steps_len
    rw [hnil] at this
    simp at this
    omega
  have hchain : sliceChain r.trace.events 0 r.trace.steps := by
    apply sliceChain_of_indexed
    · intro m h
      exact inv.chain_head m (by rwa [← List.get?_zero] at h)
    · exact inv.chain_adj
    · exact inv.from_le_to
    · exact inv.deltaTo_le_events
  have hlast : lastToFrom 0 r.trace.steps = (r.trace.steps.getLastD initStepMeta).deltaTo :=
    lastToFrom_getLastD r.trace.steps 0 initStepMeta hne
  constructor
  · rw [sliceChain_flatten r.trace.events r.trace.steps 0 hchain, hlast]
    unfold evSlice
    rw [List.drop_zero, Nat.sub_zero]
  · rw [← hlast]
    rcases sliceChain_le r.trace.events r.trace.steps 0 hchain with ⟨_, hb⟩ | hnil
    · exact hb
    · exact absurd hnil hne

/-! Helper facts about `ensureObjId` and the identity map. -/

theorem alloc_objIdMap (r : CheckpointRecorder) (obj : String) (k : ObjKind)
    (cn : Option String) : (r.alloc obj k cn).objIdMap = r.objIdMap := by
  rw [CheckpointRecorder.alloc_eq]

theorem ensureObjId_of_some {r : CheckpointRecorder} {o : Nat} {id : String}
    (k : ObjKind) (cn : Option String) (h : CheckpointRecorder.idGet r.objIdMap o = some id) :
    r.ensureObjId o k cn = (r, id) := by
  unfold CheckpointRecorder.ensureObjId
  rw [h]

theorem ensureObjId_of_none {r : CheckpointRecorder} {o : Nat}
    (k : ObjKind) (cn : Option String) (h : CheckpointRecorder.idGet r.objIdMap o = none) :
    r.ensureObjId o k cn =
      (CheckpointRecorder.alloc
        { r with objIdMap := CheckpointRecorder.idSet r.objIdMap o (mkObjId r.objIdSeq)
                 objIdSeq := r.objIdSeq + 1 }
        (mkObjId r.objIdSeq) k cn, mkObjId r.objIdSeq) := by
  unfold CheckpointRecorder.ensureObjId
  rw [h]

theorem ensureObjId_idGet_self (r : CheckpointRecorder) (o : Nat) (k : ObjKind)
    (cn : Option String) :
    CheckpointRecorder.idGet (r.ensureObjId o k cn).1.objIdMap o =
      some (r.ensureObjId o k cn).2 := by
  rcases hg : CheckpointRecorder.idGet r.objIdMap o with _ | id
  · rw [ensureObjId_of_none k cn hg]
    show CheckpointRecorder.idGet
      (CheckpointRecorder.alloc _ (mkObjId r.objIdSeq) k cn).objIdMap o = some (mkObjId r.objIdSeq)
    rw [alloc_objIdMap]
    show CheckpointRecorder.idGet
      (CheckpointRecorder.idSet r.objIdMap o (mkObjId r.objIdSeq)) o = some (mkObjId r.objIdSeq)
    rw [CheckpointRecorder.idGet_idSet, if_pos rfl]
  · rw [ensureObjId_of_some k cn hg]
    exact hg

theorem ensureObjId_idGet_mono {r : CheckpointRecorder} {p : Nat} {v : String}
    (h : CheckpointRecorder.idGet r.objIdMap p = some v) (o : Nat) (k : ObjKind)
    (cn : Option String) :
    CheckpointRecorder.idGet (r.ensureObjId o k cn).1.objIdMap p = some v := by
  rcases hg : CheckpointRecorder.idGet r.objIdMap o with _ | id
  · rw [ensureObjId_of_none k cn hg]
    show CheckpointRecorder.idGet
      (CheckpointRecorder.alloc _ (mkObjId r.objIdSeq) k cn).objIdMap p = some v
    rw [alloc_objIdMap]
    show CheckpointRecorder.idGet
      (CheckpointRecorder.idSet r.objIdMap o (mkObjId r.objIdSeq)) p = some v
    rw [CheckpointRecorder.idGet_idSet]
    rw [if_neg]
    · exact h
    · intro he
      subst he
      rw [hg] at h
      exact Option.noConfusion h
  · rw [ensureObjId_of_some k cn hg]
    exact h

/-! The JSON round-trip: the values it fixes, idempotence, and exactness
of recorder runs whose recorded values all survive it unchanged. -/

theorem mem_recSet {α : Type} {m : List (String × α)} {k : String} {v : α} {p : String × α}
    (h : p ∈ recSet m k v) : p ∈ m ∨ p = (k, v) := by
  induction m with
  | nil =>
    rw [show recSet ([] : List (String × α)) k v = [(k, v)] from rfl] at h
    exact Or.inr (List.mem_singleton.mp h)
  | cons hd tl ih =>
    obtain ⟨k', w⟩ := hd
    have hh : recSet ((k', w) :: tl) k v =
        if k' = k then (k, v) :: tl else (k', w) :: recSet tl k v := rfl
    by_cases hk : k' = k
    · rw [hh, if_pos hk] at h
      rcases List.mem_cons.mp h with h1 | h2
      · exact Or.inr h1
      · exact Or.inl (List.mem_cons_of_mem _ h2)
    · rw [hh, if_neg hk] at h
      rcases List.mem_cons.mp h with h1 | h2
      · exact Or.inl (by rw [h1]; exact List.mem_cons_self _ _)
      · rcases ih h2 with hm | he
        · exact Or.inl (List.mem_cons_of_mem _ hm)
        · exact Or.inr he

theorem mem_recDel {α : Type} {m : List (String × α)} {k : String} {p : String × α}
    (h : p ∈ recDel m k) : p ∈ m := by
  induction m with
  | nil => exact absurd h (List.not_mem_nil p)
  | cons hd tl ih =>
    obtain ⟨k', w⟩ := hd
    have hh : recDel ((k', w) :: tl) k =
        if k' = k then recDel tl k else (k', w) :: recDel tl k := rfl
    by_cases hk : k' = k
    · rw [hh, if_pos hk] at h
      exact List.mem_cons_of_mem _ (ih h)
    · rw [hh, if_neg hk] at h
      rcases List.mem_cons.mp h with h1 | h2
      · exact (by rw [h1]; exact List.mem_cons_self _ _)
      · exact List.mem_cons_of_mem _ (ih h2)

theorem clonePrim_idem {p q : Prim} (h : clonePrim p = some q) : clonePrim q = some q := by
  cases p <;> cases h <;> rfl

theorem cloneVal_idem {v w : ValueRef} (h : cloneVal v = some w) : cloneVal w = some w := by
  cases v with
  | prim p =>
    rcases hp : clonePrim p with _ | q <;>
      rw [show cloneVal (.prim p) = (clonePrim p).map ValueRef.prim from rfl, hp] at h
    · exact Option.noConfusion h
    · rw [show (some q).map ValueRef.prim = some (ValueRef.prim q) from rfl] at h
      cases h
      show (clonePrim q).map ValueRef.prim = some (.prim q)
      rw [clonePrim_idem hp]
      rfl
  | obj id =>
    cases h
    rfl

theorem cloneVals_mem_exact {m m' : List (String × ValueRef)} (h : cloneVals m = some m') :
    ∀ p ∈ m', cloneVal p.2 = some p.2 := by
  induction m generalizing m' with
  | nil =>
    cases h
    intro p hp
    exact absurd hp (List.not_mem_nil p)
  | cons hd tl ih =>
    obtain ⟨k, v⟩ := hd
    have hh : cloneVals ((k, v) :: tl) = (match cloneVal v, cloneVals tl with
      | some w, some ws => some ((k, w) :: ws)
      | _, _ => none) := rfl
    rcases hv : cloneVal v with _ | w <;> rcases ht : cloneVals tl with _ | ws <;>
      rw [hh, hv, ht] at h
    · exact Option.noConfusion h
    · exact Option.noConfusion h
    · exact Option.noConfusion h
    · cases h
      intro p hp
      rcases List.mem_cons.mp hp with hpe | hpm
      · rw [hpe]
        exact cloneVal_idem hv
      · exact ih ht p hpm

theorem cloneObj_mem_exact {o w : HeapObject} (h : cloneObj o = some w) :
    ∀ q ∈ w.props, cloneVal q.2 = some q.2 := by
  rcases hp : cloneVals o.props with _ | ps <;>
    rw [show cloneObj o = (cloneVals o.props).map (fun ps => { o with props := ps }) from rfl,
      hp] at h
  · exact Option.noConfusion h
  · rw [show (some ps).map (fun q => ({ o with props := q } : HeapObject)) =
      some { o with props := ps } from rfl] at h
    cases h
    show ∀ q ∈ ({ o with props := ps } : HeapObject).props, cloneVal q.2 = some q.2
    exact cloneVals_mem_exact hp

theorem cloneObjs_mem_exact {os os' : List (String × HeapObject)} (h : cloneObjs os = some os') :
    ∀ p ∈ os', ∀ q ∈ p.2.props, cloneVal q.2 = some q.2 := by
  induction os generalizing os' with
  | nil =>
    cases h
    intro p hp
    exact absurd hp (List.not_mem_nil p)
  | cons hd tl ih =>
    obtain ⟨k, o⟩ := hd
    have hh : cloneObjs ((k, o) :: tl) = (match cloneObj o, cloneObjs tl with
      | some w, some ws => some ((k, w) :: ws)
      | _, _ => none) := rfl
    rcases hv : cloneObj o with _ | w <;> rcases ht : cloneObjs tl with _ | ws <;>
      rw [hh, hv, ht] at h
    · exact Option.noConfusion h
    · exact Option.noConfusion h
    · exact Option.noConfusion h
    · cases h
      intro p hp
      rcases List.mem_cons.mp hp with hpe | hpm
      · rw [hpe]
        exact cloneObj_mem_exact hv
      · exact ih ht p hpm

/-- A heap state every recorded value of which survives the JSON
round-trip unchanged (no NaN, no infinities, no bigint anywhere in
`roots` or in any object's props). -/
def StateOK (S : HeapState) : Prop :=
  (∀ p ∈ S.roots, cloneVal p.2 = some p.2) ∧
  (∀ p ∈ S.objects, ∀ q ∈ p.2.props, cloneVal q.2 = some q.2)

theorem cloneVals_of_mem : ∀ {m : List (String × ValueRef)},
    (∀ p ∈ m, cloneVal p.2 = some p.2) → cloneVals m = some m := by
  intro m
  induction m with
  | nil =>
    intro _
    rfl
  | cons hd tl ih =>
    intro h
    obtain ⟨k, v⟩ := hd
    have h1 : cloneVal v = some v := h (k, v) (List.mem_cons_self _ _)
    have h2 : cloneVals tl = some tl := ih fun p hp => h p (List.mem_cons_of_mem _ hp)
    show (match cloneVal v, cloneVals tl with
      | some w, some ws => some ((k, w) :: ws)
      | _, _ => none) = some ((k, v) :: tl)
    rw [h1, h2]

theorem cloneObj_of_mem {o : HeapObject} (h : ∀ q ∈ o.props, cloneVal q.2 = some q.2) :
    cloneObj o = some o := by
  show (cloneVals o.props).map (fun ps => { o with props := ps }) = some o
  rw [cloneVals_of_mem h]
  rfl

theorem cloneObjs_of_mem : ∀ {os : List (String × HeapObject)},
    (∀ p ∈ os, ∀ q ∈ p.2.props, cloneVal q.2 = some q.2) → cloneObjs os = some os := by
  intro os
  induction os with
  | nil =>
    intro _
    rfl
  | cons hd tl ih =>
    intro h
    obtain ⟨k, o⟩ := hd
    have h1 : cloneObj o = some o := cloneObj_of_mem (h (k, o) (List.mem_cons_self _ _))
    have h2 : cloneObjs tl = some tl := ih fun p hp => h p (List.mem_cons_of_mem _ hp)
    show (match cloneObj o, cloneObjs tl with
      | some w, some ws => some ((k, w) :: ws)
      | _, _ => none) = some ((k, o) :: tl)
    rw [h1, h2]

/-- On a `StateOK` state, the JSON round-trip is the identity. -/
theorem stateOK_clone {S : HeapState} (h : StateOK S) : deepCloneState S = some S := by
  obtain ⟨hr, ho⟩ := h
  show (match cloneObjs S.objects, cloneVals S.roots with
    | some os, some rs => some ⟨os, rs, S.lastWrite⟩
    | _, _ => none) = some S
  rw [cloneVals_of_mem hr, cloneObjs_of_mem ho]

/-- Every image of the JSON round-trip is `StateOK` (the round-trip has
already replaced every non-serializable value). -/
theorem clone_stateOK {S C : HeapState} (h : deepCloneState S = some C) : StateOK C := by
  have hh : deepCloneState S = (match cloneObjs S.objects, cloneVals S.roots with
    | some os, some rs => some (⟨os, rs, S.lastWrite⟩ : HeapState)
    | _, _ => none) := rfl
  rcases hos : cloneObjs S.objects with _ | os <;> rcases hrs : cloneVals S.roots with _ | rs <;>
    rw [hh, hos, hrs] at h
  · exact Option.noConfusion h
  · exact Option.noConfusion h
  · exact Option.noConfusion h
  · cases h
    exact ⟨cloneVals_mem_exact hrs, cloneObjs_mem_exact hos⟩

/-- The JSON round-trip is idempotent: a second round-trip of any image
succeeds and is the identity. -/
theorem deepCloneState_idem {S C : HeapState} (h : deepCloneState S = some C) :
    deepCloneState C = some C :=
  stateOK_clone (clone_stateOK h)

/-- On every reachable recorder state, each stored snapshot state is a
fixed point of the JSON round-trip — so the `cloneState` call inside
`getStateAt` (the same round-trip) is the identity on it. -/
theorem run_snapshot_clone_fixed {r : CheckpointRecorder} (inv : RecInv r) :
    ∀ snap ∈ r.trace.snapshots, deepCloneState snap.state = some snap.state := by
  intro snap hmem
  rcases inv.snap_mem snap hmem with ⟨_, hcl⟩ | ⟨_, hemp⟩
  · exact deepCloneState_idem hcl
  · rw [hemp]
    rfl

/-- A `DeltaEvent` whose value payload (if any) survives the JSON
round-trip unchanged. -/
def eventExact : DeltaEvent → Bool
  | .write _ _ val _ => decide (cloneVal val = some val)
  | .rootSet _ val _ => decide (cloneVal val = some val)
  | _ => true

theorem StateOK_applyEvent {S : HeapState} (h : StateOK S) {e : DeltaEvent}
    (he : eventExact e = true) (sid : Nat) : StateOK (applyEvent S e sid) := by
  obtain ⟨hr, ho⟩ := h
  cases e with
  | alloc obj k cn =>
    show StateOK (match recGet S.objects obj with
      | some _ => S
      | none => { S with objects := recSet S.objects obj ⟨obj, k, cn, []⟩ })
    rcases hg : recGet S.objects obj with _ | o
    · refine ⟨hr, ?_⟩
      intro p hp q hq
      rcases mem_recSet hp with hpm | hpe
      · exact ho p hpm q hq
      · rw [hpe] at hq
        exact absurd hq (List.not_mem_nil q)
    · exact ⟨hr, ho⟩
  | write obj key val cp =>
    have hv : cloneVal val = some val := of_decide_eq_true he
    show StateOK (match recGet S.objects obj with
      | none => S
      | some o =>
        { S with
          objects := recSet S.objects obj { o with props := recSet o.props key val }
          lastWrite := recSet S.lastWrite (lwKey obj key) ⟨sid, cp⟩ })
    rcases hg : recGet S.objects obj with _ | o
    · exact ⟨hr, ho⟩
    · refine ⟨hr, ?_⟩
      intro p hp q hq
      rcases mem_recSet hp with hpm | hpe
      · exact ho p hpm q hq
      · rw [hpe] at hq
        rcases mem_recSet hq with hqm | hqe
        · exact ho (obj, o) (recGet_mem hg) q hqm
        · rw [hqe]
          exact hv
  | del obj key cp =>
    show StateOK (match recGet S.objects obj with
      | none => S
      | some o =>
        { S with
          objects := recSet S.objects obj { o with props := recDel o.props key }
          lastWrite := recSet S.lastWrite (lwKey obj key) ⟨sid, cp⟩ })
    rcases hg : recGet S.objects obj with _ | o
    · exact ⟨hr, ho⟩
    · refine ⟨hr, ?_⟩
      intro p hp q hq
      rcases mem_recSet hp with hpm | hpe
      · exact ho p hpm q hq
      · rw [hpe] at hq
        exact ho (obj, o) (recGet_mem hg) q (mem_recDel hq)
  | rootSet name val cp =>
    have hv : cloneVal val = some val := of_decide_eq_true he
    show StateOK { S with
      roots := recSet S.roots name val
      lastWrite := recSet S.lastWrite (rootWriteKey name) ⟨sid, cp⟩ }
    refine ⟨?_, ho⟩
    intro p hp
    rcases mem_recSet hp with hpm | hpe
    · exact hr p hpm
    · rw [hpe]
      exact hv
  | rootDel name cp =>
    show StateOK { S with
      roots := recDel S.roots name
      lastWrite := recSet S.lastWrite (rootWriteKey name) ⟨sid, cp⟩ }
    refine ⟨?_, ho⟩
    intro p hp
    exact hr p (mem_recDel hp)

theorem StateOK_applyEvents {E : List DeltaEvent} (sid : Nat) :
    ∀ S, StateOK S → (∀ e ∈ E, eventExact e = true) → StateOK (applyEvents S E sid) := by
  induction E with
  | nil =>
    intro S h _
    exact h
  | cons e tl ih =>
    intro S h hE
    show StateOK (applyEvents (applyEvent S e sid) tl sid)
    exact ih _ (StateOK_applyEvent h (hE e (List.mem_cons_self _ _)) sid)
      fun e' he' => hE e' (List.mem_cons_of_mem _ he')

/-- When every recorded event carries a JSON-exact value, every replayed
state is `StateOK` — and hence a fixed point of the round-trip. -/
theorem StateOK_replayUpTo {T : TraceLog} (hT : ∀ e ∈ T.events, eventExact e = true) :
    ∀ n, StateOK (replayUpTo T n) := by
  intro n
  induction n with
  | zero =>
    rw [show replayUpTo T 0 = emptyHeap from rfl]
    exact ⟨fun p hp => absurd hp (List.not_mem_nil p),
      fun p hp => absurd hp (List.not_mem_nil p)⟩
  | succ n ih =>
    rw [replayUpTo_succ]
    unfold applyStepIdx
    rcases hm : T.steps.get? n with _ | m
    · exact ih
    · apply StateOK_applyEvents
      · exact ih
      · intro e he
        exact hT e (List.drop_subset _ _ (List.take_subset _ _ he))

/-- A recorder method call whose value payload survives the JSON
round-trip unchanged. -/
def opExact : RecOp → Bool
  | .write _ _ val _ => decide (cloneVal val = some val)
  | .rootSet _ val _ => decide (cloneVal val = some val)
  | _ => true

/-- A hook sequence all of whose value payloads survive the JSON
round-trip unchanged (no NaN, Infinity, -Infinity or bigint recorded). -/
def opsExact (ops : List RecOp) : Bool := ops.all opExact

/-- All events recorded so far carry JSON-exact values. -/
def eventsExact (r : CheckpointRecorder) : Prop :=
  ∀ e ∈ r.trace.events, eventExact e = true

theorem eventsExact_append {r r' : CheckpointRecorder} (h : eventsExact r) {e : DeltaEvent}
    (hre : r'.trace.events = r.trace.events ++ [e]) (he : eventExact e = true) :
    eventsExact r' := by
  intro e' he'
  rw [hre] at he'
  rcases List.mem_append.mp he' with h1 | h2
  · exact h e' h1
  · rw [List.mem_singleton.mp h2]
    exact he

theorem eventsExact_runOp {r : CheckpointRecorder} (h : eventsExact r) {op : RecOp}
    (hop : opExact op = true) : eventsExact (runOp r op) := by
  cases op with
  | ensureObjId o kind cn =>
    show eventsExact (r.ensureObjId o kind cn).1
    rcases hg : CheckpointRecorder.idGet r.objIdMap o with _ | id
    · rw [ensureObjId_of_none kind cn hg]
      have hre : (CheckpointRecorder.alloc
          { r with objIdMap := CheckpointRecorder.idSet r.objIdMap o (mkObjId r.objIdSeq)
                   objIdSeq := r.objIdSeq + 1 }
          (mkObjId r.objIdSeq) kind cn).trace.events =
          r.trace.events ++ [DeltaEvent.alloc (mkObjId r.objIdSeq) kind cn] := by
        rw [CheckpointRecorder.alloc_eq]
      exact eventsExact_append h hre rfl
    · rw [ensureObjId_of_some kind cn hg]
      exact h
  | alloc obj kind cn =>
    have hre : (r.alloc obj kind cn).trace.events =
        r.trace.events ++ [DeltaEvent.alloc obj kind cn] := by
      rw [CheckpointRecorder.alloc_eq]
    exact eventsExact_append h hre rfl
  | write obj key val cp =>
    show eventsExact (r.write obj key val cp)
    rcases hg : recGet r.state.objects obj with _ | o
    · rw [CheckpointRecorder.write_eq_none r obj key val cp hg]
      exact h
    · have hre : (r.write obj key val cp).trace.events =
          r.trace.events ++ [DeltaEvent.write obj key val cp] := by
        rw [CheckpointRecorder.write_eq_some r obj key val cp o hg]
      exact eventsExact_append h hre hop
  | del obj key cp =>
    show eventsExact (r.del obj key cp)
    rcases hg : recGet r.state.objects obj with _ | o
    · rw [CheckpointRecorder.del_eq_none r obj key cp hg]
      exact h
    · have hre : (r.del obj key cp).trace.events =
          r.trace.events ++ [DeltaEvent.del obj key cp] := by
        rw [CheckpointRecorder.del_eq_some r obj key cp o hg]
      exact eventsExact_append h hre rfl
  | rootSet name val cp =>
    have hre : (r.rootSet name val cp).trace.events =
        r.trace.events ++ [DeltaEvent.rootSet name val cp] := by
      rw [CheckpointRecorder.rootSet_eq]
    exact eventsExact_append h hre hop
  | rootDel name cp =>
    have hre : (r.rootDel name cp).trace.events =
        r.trace.events ++ [DeltaEvent.rootDel name cp] := by
      rw [CheckpointRecorder.rootDel_eq]
    exact eventsExact_append h hre rfl
  | checkpointStep cp =>
    show eventsExact (r.checkpointStep cp)
    intro e he
    rw [CheckpointRecorder.checkpointStep_events] at he
    exact h e he
  | callEnter fn cp => exact h
  | callExit fn cp => exact h

theorem eventsExact_runOps {ops : List RecOp} :
    ∀ {r : CheckpointRecorder}, eventsExact r → opsExact ops = true →
      eventsExact (runOps r ops) := by
  induction ops with
  | nil =>
    intro r h _
    exact h
  | cons op tl ih =>
    intro r h hex
    have hex' : (opExact op && opsExact tl) = true := hex
    rw [Bool.and_eq_true] at hex'
    show eventsExact (runOps (runOp r op) tl)
    exact ih (eventsExact_runOp h hex'.1) hex'.2

theorem runRecorder_eventsExact (n : Nat) {ops : List RecOp} (hex : opsExact ops = true) :
    eventsExact (runRecorder n ops) :=
  eventsExact_runOps (fun e he => absurd he (List.not_mem_nil e)) hex

/-- Deep equality of two optional replay results forces equal root
lookups. -/
theorem optEquiv_roots_eq {x y : Option HeapState} (h : HeapState.OptEquiv x y)
    (name : String) :
    x.map (fun S => recGet S.roots name) = y.map (fun S => recGet S.roots name) := by
  cases x with
  | none =>
    cases y with
    | none => rfl
    | some b => exact False.elim h
  | some a =>
    cases y with
    | none => exact False.elim h
    | some b =>
      have h' : HeapState.Equiv a b := h
      exact congrArg some (h'.2.1 name)

/-! The frozen claims. -/

/-- Decides whether event index `i` of the trace lies inside some step's
half-open slice `[deltaFrom, deltaTo)`. -/
def eventCovered (T : TraceLog) (i : Nat) : Bool :=
  T.steps.any (fun m => decide (m.deltaFrom ≤ i ∧ i < m.deltaTo))

/-- C1 (counterexample): the run consisting of a single `rootSet` hook
call and no `checkpointStep` (exactly the trace of the instrumented
program `const x = 1;`, whose declarator emits no checkpoint) records one
event, and that event lies in no step's `[deltaFrom, deltaTo)` slice —
so not every recorded `DeltaEvent` is covered by a `StepMeta`. -/
theorem trailing_event_uncovered :
    (runRecorder 50 [.rootSet "x" (.prim .null) none]).trace.events.length = 1 ∧
    eventCovered (runRecorder 50 [.rootSet "x" (.prim .null) none]).trace 0 = false :=
  ⟨rfl, rfl⟩

/-- C1 (amended): for every run of the recorder pipeline, concatenating
each step's half-open slice `[deltaFrom, deltaTo)` in step order
reproduces, exactly once and with no gaps or overlaps, the *prefix* of
the events array up to the last closed step's `deltaTo`; events recorded
after the last `checkpointStep` (if any) are covered by no step. -/
theorem steps_slices_flatten (n : Nat) (ops : List RecOp) :
    ((runRecorder n ops).trace.steps.map
        (fun m => evSlice (runRecorder n ops).trace.events m.deltaFrom m.deltaTo)).flatten =
      (runRecorder n ops).trace.events.take
        (((runRecorder n ops).trace.steps.getLastD initStepMeta).deltaTo) ∧
    (((runRecorder n ops).trace.steps.getLastD initStepMeta).deltaTo ≤
      (runRecorder n ops).trace.events.length) :=
  steps_flatten_run (RecInv_runRecorder n ops)

/-- C2: `getStateAt` is pure and idempotent — the call returns the input
trace (and hence all its snapshots) unchanged, and a second call on the
trace left behind by the first returns a structurally equal result. -/
theorem getStateAt_idempotent_pure (T : TraceLog) (s : Nat) :
    (getStateAtM T s).2 = T ∧
    (getStateAtM T s).1 = (getStateAtM (getStateAtM T s).2 s).1 := by
  have h2 : (getStateAtM T s).2 = T := by
    unfold getStateAtM
    rcases hf : findSnapshot T s with _ | snap <;> rfl
  exact ⟨h2, by rw [h2]⟩

/-- The hook sequence of the instrumented program
`let x; x = 0/0; let y; y = 1; let z; z = 2;`: `0/0` is NaN, which
`typeof` reports as a number, so `toValueRef` records it as a primitive
root value; every assignment's checkpoint closes a step. -/
def lossyOps : List RecOp :=
  [.rootSet "x" (.prim .nan) none, .checkpointStep none,
   .rootSet "y" (.prim (.num 1)) none, .checkpointStep none,
   .rootSet "z" (.prim (.num 2)) none, .checkpointStep none]

/-- Its trace under `snapshotEveryNSteps = 2`: the step-1 boundary
stores a snapshot whose `deepClone` serialized the NaN root to `null`. -/
def lossyTrace : TraceLog := (runRecorder 2 lossyOps).trace

/-- C3 (counterexample): on the trace of `let x; x = 0/0; let y; y = 1;
let z; z = 2;` recorded with snapshot interval 2, `getStateAt` at step 2
replays from the step-1 snapshot, whose stored `deepClone` turned the
NaN in root `x` into `null`, while replaying every event forward from
the step-0 snapshot yields NaN — the results differ observably, so
taking snapshots does change the observable replay result. -/
theorem snapshot_lossy_clone_cex :
    (getStateAt lossyTrace 2).map (fun S => recGet S.roots "x") =
      some (some (.prim .null)) ∧
    (replayFromStep0 lossyTrace 2).map (fun S => recGet S.roots "x") =
      some (some (.prim .nan)) ∧
    ¬ HeapState.OptEquiv (getStateAt lossyTrace 2) (replayFromStep0 lossyTrace 2) := by
  refine ⟨rfl, rfl, ?_⟩
  intro h
  have hx := optEquiv_roots_eq h "x"
  rw [show (getStateAt lossyTrace 2).map (fun S => recGet S.roots "x") =
      some (some (.prim .null)) from rfl] at hx
  rw [show (replayFromStep0 lossyTrace 2).map (fun S => recGet S.roots "x") =
      some (some (.prim .nan)) from rfl] at hx
  exact absurd hx (by decide)

/-- C3 (amended): for every snapshot interval and every run all of whose
recorded values survive the JSON round-trip unchanged (no NaN, Infinity,
-Infinity or bigint payloads), replaying from the snapshot chosen by
`getStateAt` is deep-equal (equal on every root, object header, property
and lastWrite lookup) to replaying every step forward from the step-0
snapshot: for such runs snapshotting never changes the observable replay
result.  `snapshot_lossy_clone_cex` shows the restriction is needed. -/
theorem snapshot_transparency_exact (n : Nat) (ops : List RecOp)
    (hex : opsExact ops = true) (s : Nat) :
    HeapState.OptEquiv (getStateAt (runRecorder n ops).trace s)
      (replayFromStep0 (runRecorder n ops).trace s) := by
  have inv := RecInv_runRecorder n ops
  have hev : ∀ e ∈ (runRecorder n ops).trace.events, eventExact e = true :=
    runRecorder_eventsExact n hex
  apply getStateAt_equiv_replayFromStep0 inv
  intro snap hmem
  rcases inv.snap_mem snap hmem with ⟨hlt, hcl⟩ | hz
  · left
    refine ⟨hlt, ?_⟩
    have hfix := stateOK_clone (StateOK_replayUpTo hev (snap.at_ + 1))
    rw [hfix] at hcl
    exact (Option.some.inj hcl).symm
  · right
    exact hz

theorem snapshot_transparency_exact_witness :
    HeapState.OptEquiv
      (getStateAt (runRecorder 1 [.rootSet "x" (.prim (.num 1)) none,
        .checkpointStep none]).trace 0)
      (replayFromStep0 (runRecorder 1 [.rootSet "x" (.prim (.num 1)) none,
        .checkpointStep none]).trace 0) :=
  snapshot_transparency_exact 1 [.rootSet "x" (.prim (.num 1)) none, .checkpointStep none]
    rfl 0

/-- C4: the `getStateAt` algorithm — with no snapshots the lookup fails
(the source crashes on `snapshots[0]`); otherwise it selects a snapshot
with the largest `at ≤ stepId` among those recorded, clones it, and folds
`applyStepIdx` (each step's `DeltaEvent` slice, in log order) over every
step from the snapshot's step through `stepId` inclusive; and the replay
`applyEvent` semantics agrees with the Recorder's own live-heap mutation
for every emitting method. -/
theorem getStateAt_algorithm (T : TraceLog) (s : Nat) :
    (T.snapshots = [] → getStateAt T s = none) ∧
    (∀ s0 rest, T.snapshots = s0 :: rest → s0.at_ ≤ s →
      ∃ snap, findSnapshot T s = some snap ∧ snap ∈ T.snapshots ∧ snap.at_ ≤ s ∧
        (∀ x ∈ T.snapshots, x.at_ ≤ s → x.at_ ≤ snap.at_) ∧
        getStateAt T s = some ((List.range' snap.at_ (s + 1 - snap.at_)).foldl
          (fun st i => applyStepIdx T st i) (cloneState snap.state))) ∧
    (∀ (r : CheckpointRecorder) (obj key name : String) (k : ObjKind)
        (cn : Option String) (val : ValueRef) (cp : Option String),
      (r.alloc obj k cn).state = applyEvent r.state (.alloc obj k cn) r.stepId ∧
      (r.write obj key val cp).state = applyEvent r.state (.write obj key val cp) r.stepId ∧
      (r.del obj key cp).state = applyEvent r.state (.del obj key cp) r.stepId ∧
      (r.rootSet name val cp).state = applyEvent r.state (.rootSet name val cp) r.stepId ∧
      (r.rootDel name cp).state = applyEvent r.state (.rootDel name cp) r.stepId) := by
  refine ⟨?_, ?_, ?_⟩
  · intro h
    unfold getStateAt getStateAtM findSnapshot
    rw [h]
  · intro s0 rest h h0
    obtain ⟨snap, hfs, hmem, hle, hmax⟩ := findSnapshot_spec h h0
    exact ⟨snap, hfs, hmem, hle, hmax, getStateAt_of_findSnapshot hfs⟩
  · intro r obj key name k cn val cp
    exact ⟨CheckpointRecorder.alloc_state r obj k cn,
      CheckpointRecorder.write_state r obj key val cp,
      CheckpointRecorder.del_state r obj key cp,
      CheckpointRecorder.rootSet_state r name val cp,
      CheckpointRecorder.rootDel_state r name cp⟩

theorem getStateAt_algorithm_witness :
    ∃ snap, findSnapshot (CheckpointRecorder.init 3).trace 0 = some snap ∧
      snap ∈ (CheckpointRecorder.init 3).trace.snapshots ∧ snap.at_ ≤ 0 ∧
      (∀ x ∈ (CheckpointRecorder.init 3).trace.snapshots, x.at_ ≤ 0 → x.at_ ≤ snap.at_) ∧
      getStateAt (CheckpointRecorder.init 3).trace 0 =
        some ((List.range' snap.at_ (0 + 1 - snap.at_)).foldl
          (fun st i => applyStepIdx (CheckpointRecorder.init 3).trace st i)
          (cloneState snap.state)) :=
  (getStateAt_algorithm (CheckpointRecorder.init 3).trace 0).2.1 ⟨0, emptyHeap⟩ [] rfl
    (Nat.le_refl 0)

/-- C5: a `write` or `del` whose target ObjId is absent from the live
`objects` map is a silent no-op: the recorder is returned entirely
unchanged — no event is appended and `objects`, `roots` and `lastWrite`
all stay as they were. -/
theorem write_del_unknown_noop (r : CheckpointRecorder) (obj key : String) (val : ValueRef)
    (cp cp' : Option String) (h : recGet r.state.objects obj = none) :
    r.write obj key val cp = r ∧ r.del obj key cp' = r :=
  ⟨CheckpointRecorder.write_eq_none r obj key val cp h,
    CheckpointRecorder.del_eq_none r obj key cp' h⟩

theorem write_del_unknown_noop_witness :
    recGet (CheckpointRecorder.init 1).state.objects "o9" = none ∧
    ((CheckpointRecorder.init 1).write "o9" "k" (.prim .null) none = CheckpointRecorder.init 1 ∧
     (CheckpointRecorder.init 1).del "o9" "k" none = CheckpointRecorder.init 1) :=
  ⟨rfl, write_del_unknown_noop (CheckpointRecorder.init 1) "o9" "k" (.prim .null) none none rfl⟩

/-- C6: `ensureObjId` is idempotent per object identity — a repeat call
on an already-seen identity returns the identical recorder and id (no
event of any kind is emitted), the first call on a fresh identity mints
`"o<objIdSeq>"` and appends exactly one `alloc` event for it, and two
distinct identities always receive distinct ObjIds. -/
theorem ensureObjId_spec {r : CheckpointRecorder} (inv : RecInv r) (o o' : Nat)
    (k k' : ObjKind) (cn cn' : Option String) :
    (r.ensureObjId o k cn).1.ensureObjId o k' cn' = r.ensureObjId o k cn ∧
    (CheckpointRecorder.idGet r.objIdMap o = none →
      (r.ensureObjId o k cn).2 = mkObjId r.objIdSeq ∧
      (r.ensureObjId o k cn).1.trace.events =
        r.trace.events ++ [.alloc (mkObjId r.objIdSeq) k cn]) ∧
    (o ≠ o' → ((r.ensureObjId o k cn).1.ensureObjId o' k' cn').2 ≠ (r.ensureObjId o k cn).2) := by
  refine ⟨?_, ?_, ?_⟩
  · rw [ensureObjId_of_some k' cn' (ensureObjId_idGet_self r o k cn)]
  · intro hg
    rw [ensureObjId_of_none k cn hg]
    refine ⟨rfl, ?_⟩
    show (CheckpointRecorder.alloc _ (mkObjId r.objIdSeq) k cn).trace.events = _
    rw [CheckpointRecorder.alloc_eq]
  · intro hne heq
    have h1 : CheckpointRecorder.idGet (r.ensureObjId o k cn).1.objIdMap o =
        some (r.ensureObjId o k cn).2 := ensureObjId_idGet_self r o k cn
    have h1' : CheckpointRecorder.idGet
        ((r.ensureObjId o k cn).1.ensureObjId o' k' cn').1.objIdMap o =
        some (r.ensureObjId o k cn).2 := ensureObjId_idGet_mono h1 o' k' cn'
    have h2 : CheckpointRecorder.idGet
        ((r.ensureObjId o k cn).1.ensureObjId o' k' cn').1.objIdMap o' =
        some ((r.ensureObjId o k cn).1.ensureObjId o' k' cn').2 :=
      ensureObjId_idGet_self (r.ensureObjId o k cn).1 o' k' cn'
    have inv2 : RecInv ((r.ensureObjId o k cn).1.ensureObjId o' k' cn').1 :=
      RecInv_ensureObjId (RecInv_ensureObjId inv o k cn) o' k' cn'
    have := inv2.idmap_inj _ (CheckpointRecorder.idGet_mem h1') _
      (CheckpointRecorder.idGet_mem h2) (by exact heq.symm)
    exact hne this

theorem ensureObjId_spec_witness :
    ((CheckpointRecorder.init 5).ensureObjId 0 .object none).1.ensureObjId 0 .array none =
      (CheckpointRecorder.init 5).ensureObjId 0 .object none ∧
    (CheckpointRecorder.idGet (CheckpointRecorder.init 5).objIdMap 0 = none →
      ((CheckpointRecorder.init 5).ensureObjId 0 .object none).2 =
        mkObjId (CheckpointRecorder.init 5).objIdSeq ∧
      ((CheckpointRecorder.init 5).ensureObjId 0 .object none).1.trace.events =
        (CheckpointRecorder.init 5).trace.events ++
          [.alloc (mkObjId (CheckpointRecorder.init 5).objIdSeq) .object none]) ∧
    ((0 : Nat) ≠ 1 →
      (((CheckpointRecorder.init 5).ensureObjId 0 .object none).1.ensureObjId 1 .array none).2 ≠
        ((CheckpointRecorder.init 5).ensureObjId 0 .object none).2) :=
  ensureObjId_spec (RecInv_init 5) 0 1 .object .array none none

/-- C7: alloc-before-write — in every trace produced by a run of the
recorder, every `write` or `delete` event's target ObjId is the subject
of an `alloc` event strictly earlier in the events array. -/
theorem alloc_before_write (n : Nat) (ops : List RecOp) (i : Nat) (e : DeltaEvent)
    (h : (runRecorder n ops).trace.events.get? i = some e) (obj : String)
    (ho : evTargetW e = some obj) :
    ∃ j, j < i ∧ ∃ k cn, (runRecorder n ops).trace.events.get? j = some (.alloc obj k cn) :=
  (RecInv_runRecorder n ops).abw i e h obj ho

theorem alloc_before_write_witness :
    ∃ j, j < 1 ∧ ∃ k cn,
      (runRecorder 1 [.alloc "a" .object none,
        .write "a" "k" (.prim .null) none]).trace.events.get? j = some (.alloc "a" k cn) :=
  alloc_before_write 1 [.alloc "a" .object none, .write "a" "k" (.prim .null) none] 1
    (.write "a" "k" (.prim .null) none) rfl "a" rfl

/-- C8: on every reachable recorder state (construction included), the
first snapshot is the step-0 snapshot, at least one `StepMeta` exists, no
two `StepMeta` entries share a stepId (in particular stepId 0), and as
long as no step has been closed (`stepId = 0`, i.e. the placeholder is
still in place) `checkpointStep` overwrites the placeholder in place,
leaving exactly one step, instead of appending alongside it. -/
theorem step0_snapshot_and_placeholder (n : Nat) (ops : List RecOp) (cp : Option String) :
    (runRecorder n ops).trace.snapshots.head? = some ⟨0, emptyHeap⟩ ∧
    1 ≤ (runRecorder n ops).trace.steps.length ∧
    (∀ i j m m', (runRecorder n ops).trace.steps.get? i = some m →
      (runRecorder n ops).trace.steps.get? j = some m' → m.stepId = m'.stepId → i = j) ∧
    ((runRecorder n ops).stepId = 0 →
      ((runRecorder n ops).checkpointStep cp).trace.steps =
        [(runRecorder n ops).stepMetaOf cp]) := by
  have inv := RecInv_runRecorder n ops
  refine ⟨inv.snap_head, ?_, ?_, ?_⟩
  · rw [inv.steps_len]
    exact Nat.le_max_left 1 _
  · intro i j m m' hi hj hm
    have h1 := inv.steps_idx i m hi
    have h2 := inv.steps_idx j m' hj
    omega
  · intro h0
    exact CheckpointRecorder.checkpointStep_steps_zero _ cp h0 (inv.at_zero h0).1

theorem step0_snapshot_and_placeholder_witness :
    (runRecorder 1 []).trace.snapshots.head? = some ⟨0, emptyHeap⟩ ∧
    1 ≤ (runRecorder 1 []).trace.steps.length ∧
    (0 : Nat) = 0 ∧
    ((runRecorder 1 []).checkpointStep none).trace.steps =
      [(runRecorder 1 []).stepMetaOf none] := by
  have h := step0_snapshot_and_placeholder 1 [] none
  exact ⟨h.1, h.2.1, h.2.2.1 0 0 initStepMeta initStepMeta rfl rfl rfl, h.2.2.2 rfl⟩

/-- C9: `checkpointStartIdOf` reads only the node's source start
position — two nodes with the same start position receive the same
CheckpointId — and on a position with 1-based line `line` and 0-based
column `col0` it produces exactly `"L<line>:<col0+1>"`, whose column
`col0 + 1` is 1-based (at least 1). -/
theorem checkpointId_format (node node' : AstNode) (line col0 : Nat) :
    (node.loc.bind (·.start) = node'.loc.bind (·.start) →
      checkpointStartIdOf node = checkpointStartIdOf node') ∧
    checkpointStartIdOf ⟨some ⟨some ⟨some line, some col0⟩, none⟩⟩ =
      "L" ++ decRepr line ++ ":" ++ decRepr (col0 + 1) ∧
    1 ≤ col0 + 1 := by
  refine ⟨?_, rfl, Nat.le_add_left 1 col0⟩
  intro h
  unfold checkpointStartIdOf
  rw [h]

theorem checkpointId_format_witness :
    (checkpointStartIdOf ⟨none⟩ = checkpointStartIdOf ⟨none⟩) ∧
    checkpointStartIdOf ⟨some ⟨some ⟨some 3, some 4⟩, none⟩⟩ =
      "L" ++ decRepr 3 ++ ":" ++ decRepr (4 + 1) ∧
    1 ≤ 4 + 1 := by
  have h := checkpointId_format ⟨none⟩ ⟨none⟩ 3 4
  exact ⟨h.1 rfl, h.2.1, h.2.2⟩

/-- C10: `rootSet` and `rootDel` never skip — for every recorder state
and every name (present in `roots` or not), each call appends its event
to the log and records a `lastWrite` entry under `"root:<name>"` carrying
the current stepId and checkpoint id. -/
theorem root_ops_never_skip (r : CheckpointRecorder) (name : String) (val : ValueRef)
    (cp cp' : Option String) :
    (r.rootSet name val cp).trace.events = r.trace.events ++ [.rootSet name val cp] ∧
    recGet (r.rootSet name val cp).state.lastWrite (rootWriteKey name) =
      some ⟨r.stepId, cp⟩ ∧
    (r.rootDel name cp').trace.events = r.trace.events ++ [.rootDel name cp'] ∧
    recGet (r.rootDel name cp').state.lastWrite (rootWriteKey name) =
      some ⟨r.stepId, cp'⟩ := by
  refine ⟨?_, ?_, ?_, ?_⟩
  · rw [CheckpointRecorder.rootSet_eq]
  · rw [CheckpointRecorder.rootSet_state]
    show recGet (recSet r.state.lastWrite (rootWriteKey name) ⟨r.stepId, cp⟩)
      (rootWriteKey name) = some ⟨r.stepId, cp⟩
    rw [recGet_recSet, if_pos rfl]
  · rw [CheckpointRecorder.rootDel_eq]
  · rw [CheckpointRecorder.rootDel_state]
    show recGet (recSet r.state.lastWrite (rootWriteKey name) ⟨r.stepId, cp'⟩)
      (rootWriteKey name) = some ⟨r.stepId, cp'⟩
    rw [recGet_recSet, if_pos rfl]
